import Mathlib

/-!
Verification of the backgammon engine in `src/project/`.

The embedding follows the Python sources:
  gameState.py            : class GameState (board model, move generation)
  expectiminimax.py       : simple evaluator, one-ply search with cutoff, eval cache
  csp_arc_consistency.py  : phase-aware evaluator, AC-3 filter, two-ply search
  backgmn_eminimax.py     : near-duplicate GameState whose apply_move validates

Python integers become ℤ (or ℕ for die values), float scores become ℚ
(the score formulas use only sums and products of small literals), the
24-point board becomes a total function out of Fin 24, and Python dicts
keyed on the two sides become pairs of fields.  List indexing in
apply_move follows the Python wrap-around semantics for indices in
[-24, 23] (out of that range the Python program raises, so no run that
has a value is misrepresented).
-/

/-- The two sides: PLAYER = 1 (moves 0 → 23) and AI = -1 (moves 23 → 0). -/
inductive Side where
  | P : Side
  | A : Side
deriving DecidableEq, Repr

/-- Origin of a move: a board point (Python int) or the bar sentinel "BAR". -/
inductive Orig where
  | bar : Orig
  | pt (i : ℤ) : Orig
deriving DecidableEq, Repr

/-- Move = namedtuple("Move", ["from_pt", "to_pt", "die_used"]). -/
structure Move where
  from_pt : Orig
  to_pt : ℤ
  die_used : ℕ
deriving DecidableEq, Repr

/-- Board state of gameState.GameState.  The fields `dice` and
`current_player` of the Python class are copied verbatim by clone and
never consulted by the operations verified here, so they are omitted. -/
structure GameState where
  points : Fin 24 → ℤ
  barP : ℤ
  barA : ℤ
  bearOffP : ℤ
  bearOffA : ℤ
  dice_left : List ℕ

/-- bar dict accessor: self.bar[player]. -/
def GameState.bar (s : GameState) : Side → ℤ
  | .P => s.barP
  | .A => s.barA

/-- bear_off dict accessor: self.bear_off[player]. -/
def GameState.bear_off (s : GameState) : Side → ℤ
  | .P => s.bearOffP
  | .A => s.bearOffA

/-- Python list index into the 24-point board (wrap-around for negatives). -/
def idx (z : ℤ) : Fin 24 :=
  ⟨(z % 24).toNat, by
    have h0 : 0 ≤ z % 24 := Int.emod_nonneg z (by norm_num)
    have h1 : z % 24 < 24 := Int.emod_lt_of_pos z (by norm_num)
    omega⟩

/-- Positive part, as in the comprehension sum(x for x in points if x > 0). -/
def ppos (x : ℤ) : ℤ := if 0 < x then x else 0

/-- Negated negative part, as in sum(abs(x) for x in points if x < 0). -/
def pneg (x : ℤ) : ℤ := if x < 0 then -x else 0

/-- On-board checker count of PLAYER (sum of positive point counts). -/
def piecesP (s : GameState) : ℤ := ∑ i, ppos (s.points i)

/-- On-board checker count of AI (sum of absolute negative point counts). -/
def piecesA (s : GameState) : ℤ := ∑ i, pneg (s.points i)

/-- Total PLAYER checkers: on-board + bar + borne-off. -/
def countP (s : GameState) : ℤ := piecesP s + s.barP + s.bearOffP

/-- Total AI checkers: on-board + bar + borne-off. -/
def countA (s : GameState) : ℤ := piecesA s + s.barA + s.bearOffA

/-- GameState.setup_standard from gameState.py. -/
def setup_standard : GameState where
  points := fun i =>
    if (i : ℕ) = 0 then 2 else if (i : ℕ) = 11 then 5
    else if (i : ℕ) = 16 then 3 else if (i : ℕ) = 18 then 5
    else if (i : ℕ) = 23 then -2 else if (i : ℕ) = 12 then -5
    else if (i : ℕ) = 7 then -3 else if (i : ℕ) = 5 then -5 else 0
  barP := 0
  barA := 0
  bearOffP := 0
  bearOffA := 0
  dice_left := []

/-- GameState.pip_count from gameState.py: bar checkers count 25, a PLAYER
checker at i counts (24 - i), an AI checker at i counts (i + 1). -/
def pip_count (s : GameState) : Side → ℤ
  | .P => s.barP * 25 + ∑ i : Fin 24, (if 0 < s.points i then s.points i * (24 - (i : ℤ)) else 0)
  | .A => s.barA * 25 + ∑ i : Fin 24, (if s.points i < 0 then (-(s.points i)) * ((i : ℤ) + 1) else 0)

/-- GameState.can_bear_off: no bar checkers and none outside the home quadrant. -/
def can_bear_off (s : GameState) : Side → Bool
  | .P => if 0 < s.barP then false
          else decide ((∑ i : Fin 24, (if (i : ℕ) < 18 then ppos (s.points i) else 0)) = 0)
  | .A => if 0 < s.barA then false
          else decide ((∑ i : Fin 24, (if 6 ≤ (i : ℕ) then pneg (s.points i) else 0)) = 0)

/-- GameState.is_valid_dest: out-of-range destinations are left to the
bear-off logic (returns True); an in-range point is valid unless it holds
two or more opposing checkers. -/
def is_valid_dest (s : GameState) (p : Side) (dest : ℤ) : Bool :=
  if 0 ≤ dest ∧ dest ≤ 23 then
    match p with
    | .P => decide (-1 ≤ s.points (idx dest))
    | .A => decide (s.points (idx dest) ≤ 1)
  else true

/-- Origin half of GameState.apply_move: decrement the bar or the origin
point (the Python code mutates unconditionally, with no validation). -/
def originStep (m : Move) (p : Side) (s : GameState) : GameState :=
  match m.from_pt with
  | .bar =>
      match p with
      | .P => { s with barP := s.barP - 1 }
      | .A => { s with barA := s.barA - 1 }
  | .pt f =>
      match p with
      | .P => { s with points := Function.update s.points (idx f) (s.points (idx f) - 1) }
      | .A => { s with points := Function.update s.points (idx f) (s.points (idx f) + 1) }

/-- Destination half of GameState.apply_move: bear off, hit a lone enemy
checker (sending it to the bar), or stack on the destination point.  The
destination point is read after the origin update, as in the in-place
Python mutation. -/
def destStep (m : Move) (p : Side) (s : GameState) : GameState :=
  if (p = .P ∧ 24 ≤ m.to_pt) ∨ (p = .A ∧ m.to_pt ≤ -1) then
    match p with
    | .P => { s with bearOffP := s.bearOffP + 1 }
    | .A => { s with bearOffA := s.bearOffA + 1 }
  else
    let j := idx m.to_pt
    let t := s.points j
    match p with
    | .P => if t = -1 then { s with points := Function.update s.points j 1, barA := s.barA + 1 }
            else { s with points := Function.update s.points j (t + 1) }
    | .A => if t = 1 then { s with points := Function.update s.points j (-1), barP := s.barP + 1 }
            else { s with points := Function.update s.points j (t - 1) }

/-- Board-and-dice effect of GameState.apply_move on a non-None move:
origin update, then destination update, then removal of the first
occurrence of die_used from dice_left (list.remove semantics; the die is
left alone when absent, which is exactly List.erase). -/
def applyCore (m : Move) (p : Side) (s : GameState) : GameState :=
  { destStep m p (originStep m p s) with
    dice_left := (destStep m p (originStep m p s)).dice_left.erase m.die_used }

/-- GameState.apply_move: returns False (state untouched) only for None,
otherwise mutates unconditionally and returns True. -/
def apply_move (m : Option Move) (p : Side) (s : GameState) : Bool × GameState :=
  match m with
  | none => (false, s)
  | some mv => (true, applyCore mv p s)

/-- GameState.legal_single_moves_for_die: bar re-entry has priority; else
scan the 24 points for checkers of the side and emit in-range unblocked
destinations or bear-offs gated by can_bear_off. -/
def legal_single_moves_for_die (s : GameState) (p : Side) (die : ℕ) : List Move :=
  if 0 < s.bar p then
    let dest : ℤ := match p with | .P => (die : ℤ) - 1 | .A => 24 - (die : ℤ)
    if is_valid_dest s p dest then [⟨.bar, dest, die⟩] else []
  else
    (List.finRange 24).flatMap (fun i =>
      if (p = .P ∧ 0 < s.points i) ∨ (p = .A ∧ s.points i < 0) then
        let dest : ℤ := match p with | .P => (i : ℤ) + die | .A => (i : ℤ) - die
        if (p = .P ∧ 24 ≤ dest) ∨ (p = .A ∧ dest ≤ -1) then
          if can_bear_off s p then [⟨.pt (i : ℤ), dest, die⟩] else []
        else if 0 ≤ dest ∧ dest ≤ 23 then
          if is_valid_dest s p dest then [⟨.pt (i : ℤ), dest, die⟩] else []
        else []
      else [])

/-- Dice orderings explored by generate_all_sequences_for_dice: a double
expands to four copies, a distinct pair is tried in both orders
(set(permutations(dice_tuple))), anything else is taken as given. -/
def diceLists : List ℕ → List (List ℕ)
  | [a, b] => if a = b then [[a, a, a, a]] else [[a, b], [b, a]]
  | l => [l]

/-- One breadth-first expansion layer of generate_all_sequences_for_dice:
each live (sequence, state) branch either carries forward unchanged when
the die has no legal move, or forks over every legal move. -/
def expandStep (p : Side) (die : ℕ) (br : List (List Move × GameState)) :
    List (List Move × GameState) :=
  br.flatMap (fun b =>
    let moves := legal_single_moves_for_die b.2 p die
    if moves = [] then [b]
    else moves.map (fun m => (b.1 ++ [m], applyCore m p b.2)))

/-- Full expansion for one dice ordering, starting from the cloned state. -/
def expandOrder (s : GameState) (p : Side) (dl : List ℕ) : List (List Move) :=
  (dl.foldl (fun br die => expandStep p die br) [([], s)]).map Prod.fst

/-- all_final_sequences: concatenation of the expansions of every ordering. -/
def allFinal (s : GameState) (p : Side) (t : List ℕ) : List (List Move) :=
  (diceLists t).flatMap (expandOrder s p)

/-- max(len(s) for s in l), as a fold. -/
def maxLenOf (l : List (List Move)) : ℕ := l.foldl (fun a q => max a q.length) 0

/-- Seen-set deduplication loop keeping first occurrences, as in the
Python loop over sequences with a `seen` set of move-triple keys (a Move
is exactly its key triple). -/
def uniqueFirstAux (seen : List (List Move)) : List (List Move) → List (List Move)
  | [] => []
  | q :: r => if q ∈ seen then uniqueFirstAux seen r
              else q :: uniqueFirstAux (q :: seen) r

/-- Deduplication starting from the empty seen set. -/
def uniqueFirst (l : List (List Move)) : List (List Move) := uniqueFirstAux [] l

/-- GameState.generate_all_sequences_for_dice: expand every dice ordering,
keep only sequences of maximum length, deduplicated by move triples. -/
def generate_all_sequences_for_dice (s : GameState) (p : Side) (t : List ℕ) :
    List (List Move) :=
  let A := allFinal s p t
  if A = [] then []
  else uniqueFirst (A.filter (fun q => q.length = maxLenOf A))

/-- Board literal helper for concrete test states. -/
def boardOfList (l : List ℤ) : Fin 24 → ℤ := fun i => l.getD (i : ℕ) 0

/-- States reachable from the standard setup by moves the generator
produces for actual die values (1..6), applied by apply_move, for the
side to move at each step. -/
inductive Reachable : GameState → Prop
  | init : Reachable setup_standard
  | step (s : GameState) (p : Side) (d : ℕ) (m : Move) (hs : Reachable s)
      (hd1 : 1 ≤ d) (hd6 : d ≤ 6)
      (hm : m ∈ legal_single_moves_for_die s p d) : Reachable (applyCore m p s)

/-- evaluate_state from expectiminimax.py (also in backgmn_eminimax.py):
30 * borne-off differential + 0.05 * pip differential + 0.2 * piece
differential, with float literals embedded as exact rationals. -/
def evaluate_state (s : GameState) : ℚ :=
  let borne_diff : ℤ := s.bearOffP - s.bearOffA
  let pip_diff : ℤ := pip_count s .A - pip_count s .P
  30 * (borne_diff : ℚ) + (1 / 20) * (pip_diff : ℚ)
    + (1 / 5) * ((piecesP s - piecesA s : ℤ) : ℚ)

/-- Side swap: the board seen from the other player (points reversed and
negated, bar and borne-off counters exchanged).  The code has no
two-perspective evaluator, so perspective flips are modelled by this
board symmetry. -/
def mirror (s : GameState) : GameState where
  points := fun i => -(s.points i.rev)
  barP := s.barA
  barA := s.barP
  bearOffP := s.bearOffA
  bearOffA := s.bearOffP
  dice_left := s.dice_left

/-- Modelled from the spec: evaluate(state, side).  Neither Python
evaluator takes a perspective argument; evaluating for the PLAYER side is
modelled as evaluating the mirrored board. -/
def evaluateFrom (s : GameState) : Side → ℚ
  | .A => evaluate_state s
  | .P => evaluate_state (mirror s)

/-- player_furthest_back loop of csp_arc_consistency.evaluate_state:
first index holding a positive count, else -1. -/
def player_furthest_back (s : GameState) : ℤ :=
  (List.finRange 24).foldl
    (fun acc i => if 0 < s.points i ∧ acc = -1 then (i : ℤ) else acc) (-1)

/-- ai_furthest_back loop of csp_arc_consistency.evaluate_state:
last index holding a negative count, else -1. -/
def ai_furthest_back (s : GameState) : ℤ :=
  (List.finRange 24).foldl
    (fun acc i => if s.points i < 0 then (i : ℤ) else acc) (-1)

/-- Race-phase test of csp_arc_consistency.evaluate_state. -/
def is_race_phase (s : GameState) : Prop :=
  ai_furthest_back s < player_furthest_back s

instance (s : GameState) : Decidable (is_race_phase s) := by
  unfold is_race_phase; infer_instance

/-- Blot / prime structure scan of the contact branch (score and the
consecutive-AI-point counter threaded through the 24 points). -/
def contactScan (s : GameState) (init : ℚ) : ℚ × ℕ :=
  (List.finRange 24).foldl
    (fun acc i =>
      let count := s.points i
      if count < 0 then
        if count = -1 then
          let risk : ℚ := if 0 < s.barP then 1 / 5 else 1
          (if (i : ℕ) ≤ 5 then acc.1 - 250 * (3 / 2) * risk else acc.1 - 250 * risk, 0)
        else
          let c := acc.2 + 1
          (if 3 ≤ c then acc.1 + 80 * (c : ℚ) else acc.1, c)
      else (acc.1, 0))
    (init, 0)

/-- Anchor bonus loop over indices 19, 20, 21. -/
def anchorScan (s : GameState) (init : ℚ) : ℚ :=
  ([19, 20, 21] : List (Fin 24)).foldl
    (fun acc i => if s.points i ≤ -2 then acc + 150 else acc) init

/-- evaluate_state from csp_arc_consistency.py: win short-circuits, race
phase scored by pips and AI bear-off only, contact phase scored by pips,
bar hits, blot / prime structure, AI anchors and AI bear-off. -/
def evaluate_state_csp (s : GameState) : ℚ :=
  if s.bearOffA = 15 then 1000000
  else if s.bearOffP = 15 then -1000000
  else if is_race_phase s then
    -(((pip_count s .A - pip_count s .P : ℤ) : ℚ)) * 10 + (s.bearOffA : ℚ) * 1000
  else
    anchorScan s (contactScan s
        (-(((pip_count s .A - pip_count s .P : ℤ) : ℚ)) * 2
          + (s.barP : ℚ) * 1000 - (s.barA : ℚ) * 1000)).1
      + (s.bearOffA : ℚ) * 500

/-- Modelled from the spec: the phase-aware evaluator with a perspective
argument (the code has none); the PLAYER perspective mirrors the board. -/
def evaluateFromCsp (s : GameState) : Side → ℚ
  | .A => evaluate_state_csp s
  | .P => evaluate_state_csp (mirror s)

/-- tuple(st.points): the board as the immutable key component. -/
def pointsKey (s : GameState) : List ℤ := List.ofFn s.points

/-- Cache key of eval_cached in expectiminimax.py: points and the two
borne-off counters only (no bar counts, no perspective). -/
def keyE (s : GameState) : List ℤ × ℤ × ℤ := (pointsKey s, s.bearOffP, s.bearOffA)

/-- Cache key of get_eval in csp_arc_consistency.py: points, both
borne-off counters and both bar counters. -/
def keyT (s : GameState) : List ℤ × ℤ × ℤ × ℤ × ℤ :=
  (pointsKey s, s.bearOffP, s.bearOffA, s.barP, s.barA)

/-- Association-list model of a Python dict keyed by board signatures. -/
def cacheLookup {κ : Type} [DecidableEq κ] (k : κ) : List (κ × ℚ) → Option ℚ
  | [] => none
  | e :: r => if e.1 = k then some e.2 else cacheLookup k r

/-- eval_cached from expectiminimax.py: look the key up, else evaluate
and store.  The cache is threaded explicitly. -/
def eval_cached (s : GameState) (c : List ((List ℤ × ℤ × ℤ) × ℚ)) :
    ℚ × List ((List ℤ × ℤ × ℤ) × ℚ) :=
  match cacheLookup (keyE s) c with
  | some v => (v, c)
  | none => (evaluate_state s, (keyE s, evaluate_state s) :: c)

/-- get_eval from csp_arc_consistency.py: transposition-table lookup with
the full (points, bear-off, bar) key, else evaluate and store. -/
def get_eval (s : GameState) (c : List ((List ℤ × ℤ × ℤ × ℤ × ℤ) × ℚ)) :
    ℚ × List ((List ℤ × ℤ × ℤ × ℤ × ℤ) × ℚ) :=
  match cacheLookup (keyT s) c with
  | some v => (v, c)
  | none => (evaluate_state_csp s, (keyT s, evaluate_state_csp s) :: c)

/-- Soundness invariant for the transposition table: every stored value
is the evaluation of every state carrying that key. -/
def cacheWF (c : List ((List ℤ × ℤ × ℤ × ℤ × ℤ) × ℚ)) : Prop :=
  ∀ k v, cacheLookup k c = some v → ∀ s : GameState, keyT s = k → evaluate_state_csp s = v

/-- Move of backgmn_eminimax.py (fields may be None there). -/
structure MoveE where
  from_pt : Option ℤ
  to_pt : Option ℤ
  die_used : ℕ
deriving DecidableEq, Repr

/-- Board state of backgmn_eminimax.GameState (no bar in that variant). -/
structure GameStateE where
  points : Fin 24 → ℤ
  bearOffP : ℤ
  bearOffA : ℤ
  dice_left : List ℕ

/-- Legality checked by backgmn_eminimax.GameState.apply_move: origin in
range and occupied by the side, destination the bear-off sentinel or an
in-range point with no opposing checker. -/
def valid_moveE (m : MoveE) (p : Side) (s : GameStateE) : Prop :=
  match p with
  | .P => ∃ f t, m.from_pt = some f ∧ m.to_pt = some t ∧
      0 ≤ f ∧ f < 24 ∧ 0 < s.points (idx f) ∧
      (t = 24 ∨ (0 ≤ t ∧ t < 24 ∧ 0 ≤ s.points (idx t)))
  | .A => ∃ f t, m.from_pt = some f ∧ m.to_pt = some t ∧
      0 ≤ f ∧ f < 24 ∧ s.points (idx f) < 0 ∧
      (t = -1 ∨ (0 ≤ t ∧ t < 24 ∧ s.points (idx t) ≤ 0))

/-- apply_move from backgmn_eminimax.py: all checks precede any mutation,
False leaves the state untouched, success consumes the die. -/
def apply_moveE (m : Option MoveE) (p : Side) (s : GameStateE) : Bool × GameStateE :=
  match m with
  | none => (false, s)
  | some mv =>
    match p with
    | .P =>
      match mv.from_pt, mv.to_pt with
      | some f, some t =>
        if f < 0 ∨ 24 ≤ f then (false, s)
        else if s.points (idx f) ≤ 0 then (false, s)
        else if t ≠ 24 ∧ (t < 0 ∨ 24 ≤ t) then (false, s)
        else if t ≠ 24 ∧ s.points (idx t) < 0 then (false, s)
        else
          let s1 := { s with points := Function.update s.points (idx f) (s.points (idx f) - 1) }
          let s2 := if t = 24 then { s1 with bearOffP := s1.bearOffP + 1 }
                    else { s1 with points := Function.update s1.points (idx t) (s1.points (idx t) + 1) }
          (true, { s2 with dice_left := s2.dice_left.erase mv.die_used })
      | _, _ => (false, s)
    | .A =>
      match mv.from_pt, mv.to_pt with
      | some f, some t =>
        if f < 0 ∨ 24 ≤ f then (false, s)
        else if 0 ≤ s.points (idx f) then (false, s)
        else if t ≠ -1 ∧ (t < 0 ∨ 24 ≤ t) then (false, s)
        else if t ≠ -1 ∧ 0 < s.points (idx t) then (false, s)
        else
          let s1 := { s with points := Function.update s.points (idx f) (s.points (idx f) + 1) }
          let s2 := if t = -1 then { s1 with bearOffA := s1.bearOffA + 1 }
                    else { s1 with points := Function.update s1.points (idx t) (s1.points (idx t) - 1) }
          (true, { s2 with dice_left := s2.dice_left.erase mv.die_used })
      | _, _ => (false, s)

/-- unordered_dice_outcomes_with_weights: the 21 unordered pairs, weight
1 for doubles and 2 otherwise. -/
def unordered_dice_outcomes_with_weights : List ((ℕ × ℕ) × ℕ) :=
  (List.range' 1 6).flatMap (fun d1 =>
    (List.range' d1 (7 - d1)).map (fun d2 => ((d1, d2), if d1 = d2 then 1 else 2)))

/-- The 21 outcome weights as rationals, in outcome order. -/
def outcomeWeights : List ℚ :=
  unordered_dice_outcomes_with_weights.map (fun o => (o.2 : ℚ))

/-- BMIN from expectiminimax_one_ply_with_cutoff2. -/
def BMIN : ℚ := -1000000

/-- A retained root candidate of the one-ply search, abstracted to its
sequence, its immediate-win flag (bear_off[AI] >= 15 after the sequence)
and its per-outcome best opponent-reply scores. -/
structure Cand where
  seq : List Move
  isWin : Bool
  vals : List ℚ

/-- sum(w for ...): total weight of a weight list. -/
def weightSum (ws : List ℚ) : ℚ := ws.sum

/-- Weighted sum accumulated by the outcome loop over (value, weight) pairs. -/
def dotSum (ps : List (ℚ × ℚ)) : ℚ := (ps.map (fun pr => pr.2 * pr.1)).sum

/-- remaining_w: weight not yet processed. -/
def restW (ps : List (ℚ × ℚ)) : ℚ := (ps.map Prod.snd).sum

/-- optimistic_expected >= best_expected, with best_expected = inf as none. -/
def geOptB (x : ℚ) : Option ℚ → Bool
  | none => false
  | some b => decide (b ≤ x)

/-- expected_val < best_expected, with best_expected = inf as none. -/
def ltOptB (x : ℚ) : Option ℚ → Bool
  | none => true
  | some b => decide (x < b)

/-- Inner outcome loop of expectiminimax_one_ply_with_cutoff2: accumulate
weight * value; after each outcome abandon the candidate (none) when the
optimistic bound (partial sum completed by BMIN on the remaining weight,
divided by total weight) is already no better than the best expected
value so far. -/
def innerScan (W B : ℚ) (best : Option ℚ) : List (ℚ × ℚ) → ℚ → Option ℚ
  | [], acc => some acc
  | pr :: rest, acc =>
      if geOptB ((acc + pr.2 * pr.1 + restW rest * B) / W) best then none
      else innerScan W B best rest (acc + pr.2 * pr.1)

/-- Candidate loop of expectiminimax_one_ply_with_cutoff2: immediate win
returns at once (inl); otherwise a candidate surviving the inner loop
with a strictly better expected value becomes the running best. -/
def pickBest (ws : List ℚ) (W B : ℚ) :
    List Cand → Option (List Move × ℚ) → List Move ⊕ Option (List Move × ℚ)
  | [], best => .inr best
  | c :: rest, best =>
      if c.isWin then .inl c.seq
      else
        match innerScan W B (best.map Prod.snd) (c.vals.zip ws) 0 with
        | none => pickBest ws W B rest best
        | some p =>
            if ltOptB (p / W) (best.map Prod.snd) then
              pickBest ws W B rest (some (c.seq, p / W))
            else pickBest ws W B rest best

/-- Result selection of expectiminimax_one_ply_with_cutoff2 over the
retained candidates: an immediate win, else the best candidate, else the
fallback candidates[0][1]. -/
def expectiminimax_one_ply_select (cands : List Cand) : Option (List Move) :=
  match pickBest outcomeWeights (weightSum outcomeWeights) BMIN cands none with
  | .inl sq => some sq
  | .inr (some (sq, _)) => some sq
  | .inr none => cands.head?.map Cand.seq

/-- Exact expected value of a candidate over the 21 weighted outcomes. -/
def expVal (c : Cand) : ℚ := dotSum (c.vals.zip outcomeWeights) / weightSum outcomeWeights

/-- Root CSP filtering step of expectiminimax_two_ply: when the surviving
first-move set is non-empty, keep the sequences whose first move it
contains, unless that would empty the candidate list. -/
def root_filter (valid_start_moves : List Move) (root_moves : List (List Move)) :
    List (List Move) :=
  if valid_start_moves = [] then root_moves
  else if root_moves.filter (fun sq =>
      match sq with
      | [] => false
      | m :: _ => decide (m ∈ valid_start_moves)) = [] then root_moves
  else root_moves.filter (fun sq =>
      match sq with
      | [] => false
      | m :: _ => decide (m ∈ valid_start_moves))

/-! ### Helper lemmas -/

lemma originStep_dice_left (m : Move) (p : Side) (s : GameState) :
    (originStep m p s).dice_left = s.dice_left := by
  unfold originStep
  cases m.from_pt <;> cases p <;> rfl

lemma originStep_bearOffP (m : Move) (p : Side) (s : GameState) :
    (originStep m p s).bearOffP = s.bearOffP := by
  unfold originStep
  cases m.from_pt <;> cases p <;> rfl

lemma originStep_bearOffA (m : Move) (p : Side) (s : GameState) :
    (originStep m p s).bearOffA = s.bearOffA := by
  unfold originStep
  cases m.from_pt <;> cases p <;> rfl

lemma destStep_dice_left (m : Move) (p : Side) (s : GameState) :
    (destStep m p s).dice_left = s.dice_left := by
  unfold destStep
  split
  · cases p <;> rfl
  · cases p <;> dsimp only <;> split <;> rfl

lemma applyCore_dice_left (m : Move) (p : Side) (s : GameState) :
    (applyCore m p s).dice_left = s.dice_left.erase m.die_used := by
  show (destStep m p (originStep m p s)).dice_left.erase m.die_used = _
  rw [destStep_dice_left, originStep_dice_left]

/-- C10: dice bookkeeping of gameState.GameState.apply_move never fails:
every non-None move returns True; when die_used occurs in dice_left
exactly one occurrence of it is removed (counts of all other die values
unchanged), and when it does not occur dice_left is left unchanged while
the move is still applied. -/
theorem c10_apply_move_dice_bookkeeping (m : Move) (p : Side) (s : GameState) :
    (apply_move (some m) p s).1 = true
    ∧ (apply_move (some m) p s).2 = applyCore m p s
    ∧ (apply_move (some m) p s).2.dice_left = s.dice_left.erase m.die_used
    ∧ (m.die_used ∈ s.dice_left →
        (apply_move (some m) p s).2.dice_left.count m.die_used
          = s.dice_left.count m.die_used - 1
        ∧ ∀ d, d ≠ m.die_used →
            (apply_move (some m) p s).2.dice_left.count d = s.dice_left.count d)
    ∧ (m.die_used ∉ s.dice_left → (apply_move (some m) p s).2.dice_left = s.dice_left) := by
  refine ⟨rfl, rfl, applyCore_dice_left m p s, fun _ => ⟨?_, fun d hd => ?_⟩, fun hn => ?_⟩
  · rw [show (apply_move (some m) p s).2 = applyCore m p s from rfl, applyCore_dice_left]
    exact List.count_erase_self _ _
  · rw [show (apply_move (some m) p s).2 = applyCore m p s from rfl, applyCore_dice_left]
    exact List.count_erase_of_ne hd _
  · rw [show (apply_move (some m) p s).2 = applyCore m p s from rfl, applyCore_dice_left]
    exact List.erase_of_not_mem hn

/-- C10 witness: concrete run with die 3 present twice (one occurrence
removed) and the value 5 untouched. -/
theorem c10_witness :
    (3 ∈ ([3, 3, 5] : List ℕ))
    ∧ (apply_move (some ⟨.pt 0, 3, 3⟩) .P
        { points := setup_standard.points, barP := 0, barA := 0,
          bearOffP := 0, bearOffA := 0, dice_left := [3, 3, 5] }).1 = true
    ∧ (apply_move (some ⟨.pt 0, 3, 3⟩) .P
        { points := setup_standard.points, barP := 0, barA := 0,
          bearOffP := 0, bearOffA := 0, dice_left := [3, 3, 5] }).2.dice_left.count 3
        = ([3, 3, 5] : List ℕ).count 3 - 1 := by
  refine ⟨by decide, (c10_apply_move_dice_bookkeeping ⟨.pt 0, 3, 3⟩ .P _).1, ?_⟩
  exact ((c10_apply_move_dice_bookkeeping ⟨.pt 0, 3, 3⟩ .P _).2.2.2.1 (by decide)).1

/-- C5: the AC-3 root filter only narrows (every surviving sequence is in
the unfiltered set) and never converts a non-empty candidate list into a
pass (when filtering would eliminate every candidate, the unfiltered set
is used). -/
theorem c5_root_filter_sound (vs : List Move) (rm : List (List Move)) :
    (∀ q ∈ root_filter vs rm, q ∈ rm) ∧ (rm ≠ [] → root_filter vs rm ≠ []) := by
  unfold root_filter
  split
  · exact ⟨fun q hq => hq, fun h => h⟩
  · split
    · exact ⟨fun q hq => hq, fun h => h⟩
    · next h => exact ⟨fun q hq => (List.mem_filter.mp hq).1, fun _ => h⟩

/-- C5 witness: a concrete one-sequence root set survives filtering. -/
theorem c5_witness :
    (([[⟨.pt 0, 3, 3⟩]] : List (List Move)) ≠ [])
    ∧ root_filter [⟨.pt 5, 2, 3⟩] [[⟨.pt 0, 3, 3⟩]] ≠ [] := by
  exact ⟨by decide, (c5_root_filter_sound [⟨.pt 5, 2, 3⟩] [[⟨.pt 0, 3, 3⟩]]).2 (by decide)⟩

/-- C3 counterexample: in the standard setup point 1 is empty, yet
gameState.GameState.apply_move applied to a move out of point 1 returns
True and mutates the board (point 1 drops to -1), instead of failing and
leaving the state unchanged as the claim states. -/
theorem c3_counterexample :
    setup_standard.points 1 = 0
    ∧ (apply_move (some ⟨.pt 1, 4, 3⟩) .P setup_standard).1 = true
    ∧ (apply_move (some ⟨.pt 1, 4, 3⟩) .P setup_standard).2.points 1 = -1 := by
  decide


/-- C3 amended: the validating apply_move variant (backgmn_eminimax.py)
is an atomic check-then-act: a False return leaves the state untouched,
and True is returned exactly when the origin is an in-range point holding
a checker of the side and the destination is the bear-off sentinel or an
in-range point with no opposing checker. -/
theorem c3_amended (m : MoveE) (p : Side) (s : GameStateE) :
    ((apply_moveE (some m) p s).1 = false → (apply_moveE (some m) p s).2 = s)
    ∧ ((apply_moveE (some m) p s).1 = true ↔ valid_moveE m p s) := by
  obtain ⟨f?, t?, d⟩ := m
  cases p
  · cases f? with
    | none => simp [apply_moveE, valid_moveE]
    | some f =>
      cases t? with
      | none => simp [apply_moveE, valid_moveE]
      | some t =>
        unfold apply_moveE
        dsimp only
        split_ifs with h1 h2 h3 h4 ht24
        · refine ⟨fun _ => rfl, ?_⟩
          simp only [valid_moveE, Option.some.injEq]
          constructor
          · intro h; exact absurd h (by decide)
          · rintro ⟨f2, t2, hf, ht, hr1, hr2, _⟩
            cases hf; cases ht; omega
        · refine ⟨fun _ => rfl, ?_⟩
          simp only [valid_moveE, Option.some.injEq]
          constructor
          · intro h; exact absurd h (by decide)
          · rintro ⟨f2, t2, hf, ht, hr1, hr2, hocc, _⟩
            cases hf; cases ht; omega
        · refine ⟨fun _ => rfl, ?_⟩
          simp only [valid_moveE, Option.some.injEq]
          constructor
          · intro h; exact absurd h (by decide)
          · rintro ⟨f2, t2, hf, ht, hr1, hr2, hocc, hdest⟩
            cases hf; cases ht
            rcases hdest with h | ⟨h5, h6, h7⟩ <;> omega
        · refine ⟨fun _ => rfl, ?_⟩
          simp only [valid_moveE, Option.some.injEq]
          constructor
          · intro h; exact absurd h (by decide)
          · rintro ⟨f2, t2, hf, ht, hr1, hr2, hocc, hdest⟩
            cases hf; cases ht
            rcases hdest with h | ⟨h5, h6, h7⟩
            · exact h4.1 h
            · omega
        · refine ⟨fun h => absurd h (by decide), iff_of_true rfl ?_⟩
          exact ⟨f, t, rfl, rfl, by omega, by omega, by omega, Or.inl ht24⟩
        · refine ⟨fun h => absurd h (by decide), iff_of_true rfl ?_⟩
          push_neg at h3 h4
          obtain ⟨hta, htb⟩ := h3 ht24
          have hpt := h4 ht24
          exact ⟨f, t, rfl, rfl, by omega, by omega, by omega,
            Or.inr ⟨hta, by omega, hpt⟩⟩
  · cases f? with
    | none => simp [apply_moveE, valid_moveE]
    | some f =>
      cases t? with
      | none => simp [apply_moveE, valid_moveE]
      | some t =>
        unfold apply_moveE
        dsimp only
        split_ifs with h1 h2 h3 h4 htm1
        · refine ⟨fun _ => rfl, ?_⟩
          simp only [valid_moveE, Option.some.injEq]
          constructor
          · intro h; exact absurd h (by decide)
          · rintro ⟨f2, t2, hf, ht, hr1, hr2, _⟩
            cases hf; cases ht; omega
        · refine ⟨fun _ => rfl, ?_⟩
          simp only [valid_moveE, Option.some.injEq]
          constructor
          · intro h; exact absurd h (by decide)
          · rintro ⟨f2, t2, hf, ht, hr1, hr2, hocc, _⟩
            cases hf; cases ht; omega
        · refine ⟨fun _ => rfl, ?_⟩
          simp only [valid_moveE, Option.some.injEq]
          constructor
          · intro h; exact absurd h (by decide)
          · rintro ⟨f2, t2, hf, ht, hr1, hr2, hocc, hdest⟩
            cases hf; cases ht
            rcases hdest with h | ⟨h5, h6, h7⟩ <;> omega
        · refine ⟨fun _ => rfl, ?_⟩
          simp only [valid_moveE, Option.some.injEq]
          constructor
          · intro h; exact absurd h (by decide)
          · rintro ⟨f2, t2, hf, ht, hr1, hr2, hocc, hdest⟩
            cases hf; cases ht
            rcases hdest with h | ⟨h5, h6, h7⟩
            · exact h4.1 h
            · omega
        · refine ⟨fun h => absurd h (by decide), iff_of_true rfl ?_⟩
          exact ⟨f, t, rfl, rfl, by omega, by omega, by omega, Or.inl htm1⟩
        · refine ⟨fun h => absurd h (by decide), iff_of_true rfl ?_⟩
          push_neg at h3 h4
          obtain ⟨hta, htb⟩ := h3 htm1
          have hpt := h4 htm1
          exact ⟨f, t, rfl, rfl, by omega, by omega, by omega,
            Or.inr ⟨hta, by omega, hpt⟩⟩

/-- C3 witness: a legal concrete move through the validating variant
succeeds, matching the validity characterization. -/
theorem c3_witness :
    valid_moveE ⟨some 0, some 3, 3⟩ .P
      { points := setup_standard.points, bearOffP := 0, bearOffA := 0, dice_left := [3, 1] }
    ∧ (apply_moveE (some ⟨some 0, some 3, 3⟩) .P
        { points := setup_standard.points, bearOffP := 0, bearOffA := 0, dice_left := [3, 1] }).1
      = true := by
  have hv : valid_moveE ⟨some 0, some 3, 3⟩ .P
      { points := setup_standard.points, bearOffP := 0, bearOffA := 0, dice_left := [3, 1] } :=
    ⟨0, 3, rfl, rfl, by norm_num, by norm_num, by decide,
      Or.inr ⟨by norm_num, by norm_num, by decide⟩⟩
  exact ⟨hv, (c3_amended ⟨some 0, some 3, 3⟩ .P _).2.mpr hv⟩

lemma pointsKey_inj {s1 s2 : GameState} (h : pointsKey s1 = pointsKey s2) :
    s1.points = s2.points := by
  unfold pointsKey at h
  exact funext fun i => List.ofFn_inj.mp h ▸ rfl

lemma evaluate_state_csp_key_determined {s1 s2 : GameState}
    (h : keyT s1 = keyT s2) : evaluate_state_csp s1 = evaluate_state_csp s2 := by
  obtain ⟨hpts, hoffP, hoffA, hbarP, hbarA⟩ :
      pointsKey s1 = pointsKey s2 ∧ s1.bearOffP = s2.bearOffP ∧ s1.bearOffA = s2.bearOffA
        ∧ s1.barP = s2.barP ∧ s1.barA = s2.barA := by
    unfold keyT at h
    exact ⟨congrArg (fun k => k.1) h, congrArg (fun k => k.2.1) h,
      congrArg (fun k => k.2.2.1) h, congrArg (fun k => k.2.2.2.1) h,
      congrArg (fun k => k.2.2.2.2) h⟩
  have hp := pointsKey_inj hpts
  obtain ⟨p1, b1, a1, c1, d1, l1⟩ := s1
  obtain ⟨p2, b2, a2, c2, d2, l2⟩ := s2
  simp only at hp hoffP hoffA hbarP hbarA
  subst hp hoffP hoffA hbarP hbarA
  rfl

/-- C8 amended: the two-ply transposition table (get_eval, keyed by
points, both borne-off counts and both bar counts) is sound: from any
well-formed cache the returned value equals the direct evaluation of the
queried state and well-formedness is preserved, because the key
determines the evaluation. -/
theorem c8_amended (s : GameState) (c : List ((List ℤ × ℤ × ℤ × ℤ × ℤ) × ℚ))
    (hc : cacheWF c) :
    (get_eval s c).1 = evaluate_state_csp s ∧ cacheWF (get_eval s c).2 := by
  unfold get_eval
  cases hl : cacheLookup (keyT s) c with
  | some v =>
      exact ⟨(hc _ _ hl s rfl).symm, hc⟩
  | none =>
      refine ⟨rfl, ?_⟩
      intro k v hkv s2 hs2
      simp only [cacheLookup] at hkv
      split at hkv
      · next heq =>
          cases hkv
          exact evaluate_state_csp_key_determined (hs2.trans heq.symm)
      · exact hc _ _ hkv s2 hs2

/-- All-zero board used by the cache counterexample (empty cache). -/
def s8a : GameState :=
  { points := fun _ => 0, barP := 0, barA := 0, bearOffP := 0, bearOffA := 0, dice_left := [] }

/-- Same board as s8a except one PLAYER checker on the bar. -/
def s8b : GameState :=
  { points := fun _ => 0, barP := 1, barA := 0, bearOffP := 0, bearOffA := 0, dice_left := [] }

/-- C8 witness: a concrete get_eval run from the empty (trivially
well-formed) cache returns the direct evaluation. -/
theorem c8_witness :
    (get_eval s8a []).1 = evaluate_state_csp s8a ∧ cacheWF (get_eval s8a []).2 :=
  c8_amended s8a [] (by intro k v hkv; simp [cacheLookup] at hkv)

/-- C8 counterexample: the one-ply cache key (eval_cached) omits the bar
counts, so the states s8a and s8b share a key although their direct
evaluations differ; querying s8b after s8a returns the stale value of
s8a instead of the direct evaluation of s8b. -/
theorem c8_counterexample :
    keyE s8a = keyE s8b
    ∧ evaluate_state s8a ≠ evaluate_state s8b
    ∧ (eval_cached s8b (eval_cached s8a []).2).1 ≠ evaluate_state s8b := by
  have hkey : keyE s8a = keyE s8b := by decide
  have ha : evaluate_state s8a = 0 := by
    simp [evaluate_state, pip_count, piecesP, piecesA, s8a, ppos, pneg]
  have hb : evaluate_state s8b = -(5 / 4) := by
    simp [evaluate_state, pip_count, piecesP, piecesA, s8b, ppos, pneg]
    norm_num
  have e1 : eval_cached s8a [] = (evaluate_state s8a, [(keyE s8a, evaluate_state s8a)]) := rfl
  have hl : cacheLookup (keyE s8b) [(keyE s8a, evaluate_state s8a)]
      = some (evaluate_state s8a) := by
    unfold cacheLookup
    rw [if_pos hkey]
  have e2 : (eval_cached s8b (eval_cached s8a []).2).1 = evaluate_state s8a := by
    rw [e1]
    unfold eval_cached
    rw [hl]
  refine ⟨hkey, ?_, ?_⟩
  · rw [ha, hb]; norm_num
  · rw [e2, ha, hb]; norm_num

/-- Re-entry destination from the bar for a die value. -/
def entry_dest (p : Side) (d : ℕ) : ℤ :=
  match p with
  | .P => (d : ℤ) - 1
  | .A => 24 - (d : ℤ)

/-- The re-entry point for a die holds two or more opposing checkers. -/
def entry_blocked (s : GameState) (p : Side) (d : ℕ) : Prop :=
  match p with
  | .P => s.points (idx (entry_dest .P d)) ≤ -2
  | .A => 2 ≤ s.points (idx (entry_dest .A d))

instance (s : GameState) (p : Side) (d : ℕ) : Decidable (entry_blocked s p d) := by
  unfold entry_blocked
  cases p <;> dsimp only <;> infer_instance

lemma legal_bar_blocked (s : GameState) (p : Side) (d : ℕ)
    (hd1 : 1 ≤ d) (hd6 : d ≤ 6) (hbar : 0 < s.bar p)
    (hb : entry_blocked s p d) :
    legal_single_moves_for_die s p d = [] := by
  cases p
  · simp only [entry_blocked, entry_dest] at hb
    unfold legal_single_moves_for_die
    rw [if_pos hbar]
    dsimp only
    have hv : is_valid_dest s .P ((d : ℤ) - 1) = false := by
      unfold is_valid_dest
      rw [if_pos (by omega : (0 : ℤ) ≤ (d : ℤ) - 1 ∧ (d : ℤ) - 1 ≤ 23)]
      dsimp only
      exact decide_eq_false (by omega)
    simp [hv]
  · simp only [entry_blocked, entry_dest] at hb
    unfold legal_single_moves_for_die
    rw [if_pos hbar]
    dsimp only
    have hv : is_valid_dest s .A (24 - (d : ℤ)) = false := by
      unfold is_valid_dest
      rw [if_pos (by omega : (0 : ℤ) ≤ 24 - (d : ℤ) ∧ 24 - (d : ℤ) ≤ 23)]
      dsimp only
      exact decide_eq_false (by omega)
    simp [hv]

/-- C9 amended: with checkers on the bar and both re-entry points
blocked, legal_single_moves_for_die returns no move for either die, and
generate_all_sequences_for_dice returns [[]] — the one-element list
holding the empty sequence (so no sequence contains any non-bar move);
the forced pass is signalled by that empty sequence, not by an empty
list. -/
theorem c9_amended (s : GameState) (p : Side) (d1 d2 : ℕ)
    (hd11 : 1 ≤ d1) (hd16 : d1 ≤ 6) (hd21 : 1 ≤ d2) (hd26 : d2 ≤ 6)
    (hbar : 0 < s.bar p)
    (hb1 : entry_blocked s p d1) (hb2 : entry_blocked s p d2) :
    legal_single_moves_for_die s p d1 = []
    ∧ legal_single_moves_for_die s p d2 = []
    ∧ generate_all_sequences_for_dice s p [d1, d2] = [[]] := by
  have hl1 := legal_bar_blocked s p d1 hd11 hd16 hbar hb1
  have hl2 := legal_bar_blocked s p d2 hd21 hd26 hbar hb2
  refine ⟨hl1, hl2, ?_⟩
  by_cases hdd : d1 = d2
  · subst hdd
    have hA : allFinal s p [d1, d1] = [[]] := by
      simp [allFinal, diceLists, expandOrder, expandStep, hl1]
    rw [generate_all_sequences_for_dice, hA]
    decide
  · have hA : allFinal s p [d1, d2] = [[], []] := by
      simp [allFinal, diceLists, hdd, expandOrder, expandStep, hl1, hl2]
    rw [generate_all_sequences_for_dice, hA]
    decide

/-- Concrete blocked-bar state: PLAYER has one bar checker and the
re-entry points for dice 3 and 4 (board points 2 and 3) each hold two AI
checkers. -/
def sBlocked : GameState :=
  { points := boardOfList
      [0, 0, -2, -2, 0, -5, 0, -3, 0, 0, 0, 5, -5, 0, 0, 0, 3, 0, 5, 0, 0, 0, 0, -2],
    barP := 1, barA := 0, bearOffP := 0, bearOffA := 0, dice_left := [3, 4] }

/-- C9 counterexample: at the blocked-bar state the generator result is
the one-element list [[]], not the empty list the claim specifies. -/
theorem c9_counterexample :
    0 < sBlocked.bar .P
    ∧ sBlocked.points (idx (entry_dest .P 3)) ≤ -2
    ∧ sBlocked.points (idx (entry_dest .P 4)) ≤ -2
    ∧ generate_all_sequences_for_dice sBlocked .P [3, 4] = [[]]
    ∧ generate_all_sequences_for_dice sBlocked .P [3, 4] ≠ [] := by
  decide

/-- C9 witness: the amended statement instantiated at the blocked-bar
state. -/
theorem c9_witness :
    legal_single_moves_for_die sBlocked .P 3 = []
    ∧ legal_single_moves_for_die sBlocked .P 4 = []
    ∧ generate_all_sequences_for_dice sBlocked .P [3, 4] = [[]] :=
  c9_amended sBlocked .P 3 4 (by decide) (by decide) (by decide) (by decide)
    (by decide) (by decide) (by decide)

lemma mem_uniqueFirstAux (x : List Move) :
    ∀ (l seen : List (List Move)), x ∈ uniqueFirstAux seen l ↔ (x ∈ l ∧ x ∉ seen) := by
  intro l
  induction l with
  | nil => intro seen; simp [uniqueFirstAux]
  | cons q r ih =>
      intro seen
      by_cases hq : q ∈ seen
      · rw [uniqueFirstAux, if_pos hq, ih]
        constructor
        · rintro ⟨hr, hs⟩; exact ⟨List.mem_cons_of_mem _ hr, hs⟩
        · rintro ⟨hqr, hs⟩
          rcases List.mem_cons.mp hqr with rfl | hr
          · exact absurd hq hs
          · exact ⟨hr, hs⟩
      · rw [uniqueFirstAux, if_neg hq]
        constructor
        · intro hx
          rcases List.mem_cons.mp hx with rfl | hx
          · exact ⟨List.mem_cons_self _ _, hq⟩
          · obtain ⟨hr, hs⟩ := (ih _).mp hx
            exact ⟨List.mem_cons_of_mem _ hr, fun hseen => hs (List.mem_cons_of_mem _ hseen)⟩
        · rintro ⟨hqr, hs⟩
          rcases List.mem_cons.mp hqr with rfl | hr
          · exact List.mem_cons_self _ _
          · by_cases hxq : x = q
            · subst hxq; exact List.mem_cons_self _ _
            · exact List.mem_cons_of_mem _ ((ih _).mpr
                ⟨hr, fun hmem => by
                  rcases List.mem_cons.mp hmem with h | h
                  · exact hxq h
                  · exact hs h⟩)

lemma nodup_uniqueFirstAux :
    ∀ (l seen : List (List Move)), (uniqueFirstAux seen l).Nodup := by
  intro l
  induction l with
  | nil => intro seen; simp [uniqueFirstAux]
  | cons q r ih =>
      intro seen
      by_cases hq : q ∈ seen
      · rw [uniqueFirstAux, if_pos hq]; exact ih seen
      · rw [uniqueFirstAux, if_neg hq]
        refine List.nodup_cons.mpr ⟨fun hmem => ?_, ih _⟩
        exact ((mem_uniqueFirstAux q r (q :: seen)).mp hmem).2 (List.mem_cons_self _ _)

lemma mem_uniqueFirst (x : List Move) (l : List (List Move)) :
    x ∈ uniqueFirst l ↔ x ∈ l := by
  rw [uniqueFirst, mem_uniqueFirstAux]
  simp

lemma nodup_uniqueFirst (l : List (List Move)) : (uniqueFirst l).Nodup :=
  nodup_uniqueFirstAux l []

lemma foldl_max_init_le :
    ∀ (l : List (List Move)) (a : ℕ), a ≤ l.foldl (fun a q => max a q.length) a := by
  intro l
  induction l with
  | nil => intro a; exact le_refl a
  | cons q r ih =>
      intro a
      exact le_trans (le_max_left a q.length) (ih (max a q.length))

lemma length_le_foldl_max :
    ∀ (l : List (List Move)) (a : ℕ) (q : List Move), q ∈ l →
      q.length ≤ l.foldl (fun a q => max a q.length) a := by
  intro l
  induction l with
  | nil => intro a q hq; exact absurd hq (List.not_mem_nil q)
  | cons x r ih =>
      intro a q hq
      rcases List.mem_cons.mp hq with rfl | hq
      · exact le_trans (le_max_right a q.length) (foldl_max_init_le r _)
      · exact ih _ q hq

lemma le_maxLenOf (l : List (List Move)) (q : List Move) (hq : q ∈ l) :
    q.length ≤ maxLenOf l :=
  length_le_foldl_max l 0 q hq

lemma foldl_max_cases :
    ∀ (l : List (List Move)) (a : ℕ),
      l.foldl (fun a q => max a q.length) a = a
      ∨ ∃ q ∈ l, l.foldl (fun a q => max a q.length) a = q.length := by
  intro l
  induction l with
  | nil => intro a; exact Or.inl rfl
  | cons x r ih =>
      intro a
      rw [List.foldl_cons]
      rcases ih (max a x.length) with h | ⟨q, hq, h⟩
      · rcases Nat.le_total x.length a with hle | hle
        · rw [h, max_eq_left hle]; exact Or.inl rfl
        · rw [h, max_eq_right hle]
          exact Or.inr ⟨x, List.mem_cons_self _ _, rfl⟩
      · exact Or.inr ⟨q, List.mem_cons_of_mem _ hq, h⟩

lemma maxLenOf_attained (l : List (List Move)) (hl : l ≠ []) :
    ∃ q ∈ l, q.length = maxLenOf l := by
  rcases foldl_max_cases l 0 with h | ⟨q, hq, h⟩
  · obtain ⟨q, r, rfl⟩ := List.exists_cons_of_ne_nil hl
    refine ⟨q, List.mem_cons_self _ _, ?_⟩
    have h1 := le_maxLenOf (q :: r) q (List.mem_cons_self _ _)
    have h2 : maxLenOf (q :: r) = 0 := h
    omega
  · exact ⟨q, hq, (show maxLenOf l = q.length from h).symm⟩

lemma expandStep_ne_nil (p : Side) (die : ℕ) (br : List (List Move × GameState))
    (hbr : br ≠ []) : expandStep p die br ≠ [] := by
  obtain ⟨b, r, rfl⟩ := List.exists_cons_of_ne_nil hbr
  unfold expandStep
  intro hcontra
  rw [List.flatMap_cons] at hcontra
  have h2 := List.append_eq_nil.mp hcontra
  by_cases hm : legal_single_moves_for_die b.2 p die = []
  · rw [if_pos hm] at h2
    exact List.cons_ne_nil _ _ h2.1
  · rw [if_neg hm] at h2
    exact hm (List.map_eq_nil_iff.mp h2.1)

lemma expandOrder_ne_nil (s : GameState) (p : Side) (dl : List ℕ) :
    expandOrder s p dl ≠ [] := by
  unfold expandOrder
  intro hcontra
  rw [List.map_eq_nil_iff] at hcontra
  have : ∀ (l : List ℕ) (br : List (List Move × GameState)), br ≠ [] →
      l.foldl (fun br die => expandStep p die br) br ≠ [] := by
    intro l
    induction l with
    | nil => intro br hbr; exact hbr
    | cons d r ih =>
        intro br hbr
        exact ih _ (expandStep_ne_nil p d br hbr)
  exact this dl [([], s)] (by simp) hcontra

lemma diceLists_pair (a b : ℕ) :
    diceLists [a, b] = if a = b then [[a, a, a, a]] else [[a, b], [b, a]] := rfl

lemma allFinal_pair_ne_nil (s : GameState) (p : Side) (a b : ℕ) :
    allFinal s p [a, b] ≠ [] := by
  unfold allFinal
  rw [diceLists_pair]
  by_cases hab : a = b
  · subst hab
    rw [if_pos rfl]
    simp only [List.flatMap_cons, List.flatMap_nil, List.append_nil]
    exact expandOrder_ne_nil s p [a, a, a, a]
  · rw [if_neg hab]
    simp only [List.flatMap_cons, List.flatMap_nil, List.append_nil]
    intro hcontra
    exact expandOrder_ne_nil s p [a, b] (List.append_eq_nil.mp hcontra).1

/-- C2: for a non-double pair the generator explores exactly the two die
orderings, returns a deduplicated (Nodup) list whose members are exactly
the generated sequences of maximum length — never a sequence shorter
than the maximum over all orderings and branches — and the result is in
fact never the empty list (so an empty result implying a forced pass
holds vacuously). -/
theorem c2_generator_max_dice (s : GameState) (p : Side) (a b : ℕ) (hab : a ≠ b) :
    allFinal s p [a, b] = expandOrder s p [a, b] ++ expandOrder s p [b, a]
    ∧ generate_all_sequences_for_dice s p [a, b] ≠ []
    ∧ (generate_all_sequences_for_dice s p [a, b]).Nodup
    ∧ (∀ q, q ∈ generate_all_sequences_for_dice s p [a, b]
        ↔ (q ∈ allFinal s p [a, b] ∧ q.length = maxLenOf (allFinal s p [a, b])))
    ∧ (∀ q ∈ generate_all_sequences_for_dice s p [a, b],
        ∀ q2 ∈ allFinal s p [a, b], q2.length ≤ q.length) := by
  have hsplit : allFinal s p [a, b] = expandOrder s p [a, b] ++ expandOrder s p [b, a] := by
    unfold allFinal
    rw [diceLists_pair, if_neg hab]
    simp [List.flatMap_cons]
  have hA : allFinal s p [a, b] ≠ [] := allFinal_pair_ne_nil s p a b
  have hgen : generate_all_sequences_for_dice s p [a, b]
      = uniqueFirst ((allFinal s p [a, b]).filter
          (fun q => q.length = maxLenOf (allFinal s p [a, b]))) := by
    unfold generate_all_sequences_for_dice
    rw [if_neg hA]
  have hmem : ∀ q, q ∈ generate_all_sequences_for_dice s p [a, b]
      ↔ (q ∈ allFinal s p [a, b] ∧ q.length = maxLenOf (allFinal s p [a, b])) := by
    intro q
    rw [hgen, mem_uniqueFirst, List.mem_filter]
    simp
  refine ⟨hsplit, ?_, ?_, hmem, ?_⟩
  · obtain ⟨q, hq, hlen⟩ := maxLenOf_attained _ hA
    exact List.ne_nil_of_mem ((hmem q).mpr ⟨hq, hlen⟩)
  · rw [hgen]; exact nodup_uniqueFirst _
  · intro q hq q2 hq2
    obtain ⟨-, hlen⟩ := (hmem q).mp hq
    rw [hlen]
    exact le_maxLenOf _ q2 hq2

/-- C2 witness: the AI opening roll (3, 1) from the standard setup. -/
theorem c2_witness :
    (3 : ℕ) ≠ 1
    ∧ generate_all_sequences_for_dice setup_standard .A [3, 1] ≠ []
    ∧ (generate_all_sequences_for_dice setup_standard .A [3, 1]).Nodup :=
  ⟨by decide, (c2_generator_max_dice setup_standard .A 3 1 (by decide)).2.1,
    (c2_generator_max_dice setup_standard .A 3 1 (by decide)).2.2.1⟩

/-- The opposing side. -/
def Side.opp : Side → Side
  | .P => .A
  | .A => .P

lemma sum_rev (F : Fin 24 → ℤ) : ∑ i : Fin 24, F i.rev = ∑ i : Fin 24, F i :=
  Fintype.sum_bijective Fin.rev Fin.rev_involutive.bijective
    (fun i => F i.rev) F (fun _ => rfl)

lemma ppos_neg (x : ℤ) : ppos (-x) = pneg x := by
  unfold ppos pneg; split_ifs <;> omega

lemma pneg_neg (x : ℤ) : pneg (-x) = ppos x := by
  unfold ppos pneg; split_ifs <;> omega

lemma coe_rev (i : Fin 24) : ((i.rev : Fin 24) : ℤ) = 23 - (i : ℤ) := by
  have h1 : i.rev.val = 23 - i.val := by
    rw [Fin.val_rev]
    omega
  have h2 : i.val < 24 := i.isLt
  rw [show ((i.rev : Fin 24) : ℤ) = ((i.rev.val : ℕ) : ℤ) from rfl, h1]
  omega

lemma piecesP_mirror (s : GameState) : piecesP (mirror s) = piecesA s := by
  unfold piecesP piecesA mirror
  dsimp only
  simp only [ppos_neg]
  exact sum_rev (fun i => pneg (s.points i))

lemma piecesA_mirror (s : GameState) : piecesA (mirror s) = piecesP s := by
  unfold piecesP piecesA mirror
  dsimp only
  simp only [pneg_neg]
  exact sum_rev (fun i => ppos (s.points i))

lemma pip_mirror_P (s : GameState) : pip_count (mirror s) .P = pip_count s .A := by
  simp only [pip_count, mirror]
  congr 1
  have key : ∀ i : Fin 24,
      (if 0 < -(s.points i.rev) then -(s.points i.rev) * (24 - (i : ℤ)) else 0)
      = (fun j : Fin 24 => if s.points j < 0 then (-(s.points j)) * ((j : ℤ) + 1) else 0) i.rev := by
    intro i
    dsimp only
    by_cases h : s.points i.rev < 0
    · rw [if_pos (by omega : (0 : ℤ) < -(s.points i.rev)), if_pos h, coe_rev]
      ring
    · rw [if_neg (by omega : ¬ (0 : ℤ) < -(s.points i.rev)), if_neg h]
  calc ∑ i : Fin 24, (if 0 < -(s.points i.rev) then -(s.points i.rev) * (24 - (i : ℤ)) else 0)
      = ∑ i : Fin 24, (fun j : Fin 24 =>
          if s.points j < 0 then (-(s.points j)) * ((j : ℤ) + 1) else 0) i.rev :=
        Finset.sum_congr rfl (fun i _ => key i)
    _ = ∑ j : Fin 24, (if s.points j < 0 then (-(s.points j)) * ((j : ℤ) + 1) else 0) :=
        sum_rev (fun j : Fin 24 => if s.points j < 0 then (-(s.points j)) * ((j : ℤ) + 1) else 0)

lemma pip_mirror_A (s : GameState) : pip_count (mirror s) .A = pip_count s .P := by
  simp only [pip_count, mirror]
  congr 1
  have key : ∀ i : Fin 24,
      (if -(s.points i.rev) < 0 then (-(-(s.points i.rev))) * ((i : ℤ) + 1) else 0)
      = (fun j : Fin 24 => if 0 < s.points j then s.points j * (24 - (j : ℤ)) else 0) i.rev := by
    intro i
    dsimp only
    by_cases h : 0 < s.points i.rev
    · rw [if_pos (by omega : -(s.points i.rev) < 0), if_pos h, coe_rev]
      ring
    · rw [if_neg (by omega : ¬ -(s.points i.rev) < 0), if_neg h]
  calc ∑ i : Fin 24, (if -(s.points i.rev) < 0 then (-(-(s.points i.rev))) * ((i : ℤ) + 1) else 0)
      = ∑ i : Fin 24, (fun j : Fin 24 =>
          if 0 < s.points j then s.points j * (24 - (j : ℤ)) else 0) i.rev :=
        Finset.sum_congr rfl (fun i _ => key i)
    _ = ∑ j : Fin 24, (if 0 < s.points j then s.points j * (24 - (j : ℤ)) else 0) :=
        sum_rev (fun j : Fin 24 => if 0 < s.points j then s.points j * (24 - (j : ℤ)) else 0)

lemma evaluate_state_mirror (s : GameState) :
    evaluate_state (mirror s) = -(evaluate_state s) := by
  unfold evaluate_state
  rw [pip_mirror_P, pip_mirror_A, piecesP_mirror, piecesA_mirror,
    show (mirror s).bearOffP = s.bearOffA from rfl,
    show (mirror s).bearOffA = s.bearOffP from rfl]
  push_cast
  ring

/-- C6 amended: the simple evaluator of expectiminimax.py is
perspective-antisymmetric under board mirroring (the only way to obtain
the opposing perspective, as neither evaluator takes a side argument);
the phase-aware evaluator of csp_arc_consistency.py is not (see the
counterexample). -/
theorem c6_amended (s : GameState) (p : Side) :
    evaluateFrom s p = -(evaluateFrom s p.opp) := by
  cases p
  · show evaluate_state (mirror s) = -(evaluate_state s)
    exact evaluate_state_mirror s
  · show evaluate_state s = -(evaluate_state (mirror s))
    rw [evaluate_state_mirror s]
    ring

/-- Race-phase state refuting the antisymmetry of the phase evaluator:
one PLAYER checker on point 20, one AI checker on point 2, AI has borne
off 3 checkers (the AI-only bear-off bonus breaks the symmetry). -/
def sC6 : GameState :=
  { points := fun i => if (i : ℕ) = 20 then 1 else if (i : ℕ) = 2 then -1 else 0,
    barP := 0, barA := 0, bearOffP := 0, bearOffA := 3, dice_left := [] }

/-- C6 counterexample: the phase-aware evaluator violates
evaluate(state, A) = -evaluate(state, B) on the non-terminal state sC6. -/
theorem c6_counterexample :
    sC6.bearOffA ≠ 15 ∧ sC6.bearOffP ≠ 15
    ∧ evaluateFromCsp sC6 .A ≠ -(evaluateFromCsp sC6 .P) := by
  refine ⟨by decide, by decide, ?_⟩
  show evaluate_state_csp sC6 ≠ -(evaluate_state_csp (mirror sC6))
  have h1 : evaluate_state_csp sC6 = 3010 := by
    unfold evaluate_state_csp
    rw [if_neg (by decide : ¬ sC6.bearOffA = 15),
      if_neg (by decide : ¬ sC6.bearOffP = 15),
      if_pos (by decide : is_race_phase sC6),
      show pip_count sC6 .A = 3 from by decide,
      show pip_count sC6 .P = 4 from by decide,
      show sC6.bearOffA = 3 from rfl]
    norm_num
  have h2 : evaluate_state_csp (mirror sC6) = -10 := by
    unfold evaluate_state_csp
    rw [if_neg (by decide : ¬ (mirror sC6).bearOffA = 15),
      if_neg (by decide : ¬ (mirror sC6).bearOffP = 15),
      if_pos (by decide : is_race_phase (mirror sC6)),
      show pip_count (mirror sC6) .A = 4 from by decide,
      show pip_count (mirror sC6) .P = 3 from by decide,
      show (mirror sC6).bearOffA = 0 from rfl]
    norm_num
  rw [h1, h2]
  norm_num

lemma foldl_first_stay (P : Fin 24 → Prop) [DecidablePred P] :
    ∀ (l : List (Fin 24)) (init : ℤ), init ≠ -1 →
      l.foldl (fun acc i => if P i ∧ acc = -1 then (i : ℤ) else acc) init = init := by
  intro l
  induction l with
  | nil => intro init _; rfl
  | cons a r ih =>
      intro init h
      rw [List.foldl_cons, if_neg (fun hc => h hc.2)]
      exact ih init h

lemma foldl_first_spec (P : Fin 24 → Prop) [DecidablePred P] :
    ∀ l : List (Fin 24), l.Pairwise (· ≤ ·) →
      (l.foldl (fun acc i => if P i ∧ acc = -1 then (i : ℤ) else acc) (-1) = -1
          ∧ ∀ i ∈ l, ¬ P i)
      ∨ (∃ i ∈ l, P i
          ∧ l.foldl (fun acc i => if P i ∧ acc = -1 then (i : ℤ) else acc) (-1) = (i : ℤ)
          ∧ ∀ j ∈ l, P j → i ≤ j) := by
  intro l
  induction l with
  | nil => intro _; exact Or.inl ⟨rfl, by simp⟩
  | cons a r ih =>
      intro hp
      obtain ⟨ha, hr⟩ := List.pairwise_cons.mp hp
      rw [List.foldl_cons]
      by_cases hPa : P a
      · rw [if_pos ⟨hPa, rfl⟩]
        have hstay := foldl_first_stay P r (a : ℤ) (by omega)
        refine Or.inr ⟨a, List.mem_cons_self _ _, hPa, hstay, ?_⟩
        intro j hj _
        rcases List.mem_cons.mp hj with rfl | hjr
        · exact le_refl _
        · exact ha j hjr
      · rw [if_neg (fun hc => hPa hc.1)]
        rcases ih hr with ⟨hfold, hnone⟩ | ⟨i, hi, hPi, hfold, hmin⟩
        · refine Or.inl ⟨hfold, ?_⟩
          intro j hj
          rcases List.mem_cons.mp hj with rfl | hjr
          · exact hPa
          · exact hnone j hjr
        · refine Or.inr ⟨i, List.mem_cons_of_mem _ hi, hPi, hfold, ?_⟩
          intro j hj hPj
          rcases List.mem_cons.mp hj with rfl | hjr
          · exact absurd hPj hPa
          · exact hmin j hjr hPj

lemma foldl_last_spec (P : Fin 24 → Prop) [DecidablePred P] :
    ∀ l : List (Fin 24), l.Pairwise (· ≤ ·) →
      (l.foldl (fun acc i => if P i then (i : ℤ) else acc) (-1) = -1 ∧ ∀ i ∈ l, ¬ P i)
      ∨ (∃ i ∈ l, P i
          ∧ l.foldl (fun acc i => if P i then (i : ℤ) else acc) (-1) = (i : ℤ)
          ∧ ∀ j ∈ l, P j → j ≤ i) := by
  intro l
  induction l using List.reverseRecOn with
  | nil => intro _; exact Or.inl ⟨rfl, by simp⟩
  | append_singleton r a ih =>
      intro hp
      obtain ⟨hpr, -, hcross⟩ := List.pairwise_append.mp hp
      rw [List.foldl_append, List.foldl_cons, List.foldl_nil]
      by_cases hPa : P a
      · rw [if_pos hPa]
        refine Or.inr ⟨a, List.mem_append_right _ (List.mem_singleton_self a), hPa, rfl, ?_⟩
        intro j hj _
        rcases List.mem_append.mp hj with hjr | hja
        · exact hcross j hjr a (List.mem_singleton_self a)
        · rw [List.mem_singleton.mp hja]
      · rw [if_neg hPa]
        rcases ih hpr with ⟨hfold, hnone⟩ | ⟨i, hi, hPi, hfold, hmax⟩
        · refine Or.inl ⟨hfold, ?_⟩
          intro j hj
          rcases List.mem_append.mp hj with hjr | hja
          · exact hnone j hjr
          · rw [List.mem_singleton.mp hja]; exact hPa
        · refine Or.inr ⟨i, List.mem_append_left _ hi, hPi, hfold, ?_⟩
          intro j hj hPj
          rcases List.mem_append.mp hj with hjr | hja
          · exact hmax j hjr hPj
          · rw [List.mem_singleton.mp hja] at hPj; exact absurd hPj hPa

lemma player_furthest_back_spec (s : GameState) :
    (player_furthest_back s = -1 ∧ ∀ i : Fin 24, ¬ 0 < s.points i)
    ∨ (∃ i : Fin 24, 0 < s.points i ∧ player_furthest_back s = (i : ℤ)
        ∧ ∀ j : Fin 24, 0 < s.points j → i ≤ j) := by
  have h := foldl_first_spec (fun i => 0 < s.points i) (List.finRange 24) (by decide)
  unfold player_furthest_back
  rcases h with ⟨h1, h2⟩ | ⟨i, _, hPi, h1, h2⟩
  · exact Or.inl ⟨h1, fun i => h2 i (List.mem_finRange i)⟩
  · exact Or.inr ⟨i, hPi, h1, fun j hj => h2 j (List.mem_finRange j) hj⟩

lemma ai_furthest_back_spec (s : GameState) :
    (ai_furthest_back s = -1 ∧ ∀ i : Fin 24, ¬ s.points i < 0)
    ∨ (∃ i : Fin 24, s.points i < 0 ∧ ai_furthest_back s = (i : ℤ)
        ∧ ∀ j : Fin 24, s.points j < 0 → j ≤ i) := by
  have h := foldl_last_spec (fun i => s.points i < 0) (List.finRange 24) (by decide)
  unfold ai_furthest_back
  rcases h with ⟨h1, h2⟩ | ⟨i, _, hPi, h1, h2⟩
  · exact Or.inl ⟨h1, fun i => h2 i (List.mem_finRange i)⟩
  · exact Or.inr ⟨i, hPi, h1, fun j hj => h2 j (List.mem_finRange j) hj⟩

/-- C7 amended: the phase evaluator classifies a non-terminal position
as race phase exactly when contact is broken — some PLAYER checker is on
the board and every AI checker sits on a strictly lower index than every
PLAYER checker (the code compares last-AI-index against first-PLAYER-
index, with -1 for an absent side) — and in race phase the score is
exactly 10 * pip differential + 1000 * AI borne-off count, with the
structural blot / prime / anchor terms ignored. -/
theorem c7_amended (s : GameState) (hA : s.bearOffA ≠ 15) (hP : s.bearOffP ≠ 15) :
    (is_race_phase s ↔ ((∃ i : Fin 24, 0 < s.points i)
        ∧ ∀ i j : Fin 24, 0 < s.points i → s.points j < 0 → (j : ℕ) < (i : ℕ)))
    ∧ (is_race_phase s → evaluate_state_csp s
        = 10 * (((pip_count s .P - pip_count s .A : ℤ)) : ℚ)
          + 1000 * (s.bearOffA : ℚ)) := by
  constructor
  · unfold is_race_phase
    rcases player_furthest_back_spec s with ⟨hf1, hn1⟩ | ⟨i0, hpos, hf1, hmin⟩
    · rcases ai_furthest_back_spec s with ⟨hf2, _⟩ | ⟨j0, hneg, hf2, _⟩
      · rw [hf1, hf2]
        exact iff_of_false (lt_irrefl _) (fun h => hn1 _ h.1.choose_spec)
      · rw [hf1, hf2]
        refine iff_of_false (by omega) (fun h => hn1 _ h.1.choose_spec)
    · rcases ai_furthest_back_spec s with ⟨hf2, hn2⟩ | ⟨j0, hneg, hf2, hmax⟩
      · rw [hf1, hf2]
        refine iff_of_true (by omega) ⟨⟨i0, hpos⟩, fun i j _ hnj => absurd hnj (hn2 j)⟩
      · rw [hf1, hf2]
        constructor
        · intro hlt
          refine ⟨⟨i0, hpos⟩, fun i j hpi hnj => ?_⟩
          have h1 := Fin.le_def.mp (hmax j hnj)
          have h2 := Fin.le_def.mp (hmin i hpi)
          omega
        · rintro ⟨-, hall⟩
          have := hall i0 j0 hpos hneg
          omega
  · intro hrace
    unfold evaluate_state_csp
    rw [if_neg hA, if_neg hP, if_pos hrace]
    push_cast
    ring

/-- Modelled from the spec: race phase when both sides have at least 12
checkers in their home regions (PLAYER home 18..23, AI home 0..5, the
bear-off quadrants of can_bear_off) or the pip-count gap exceeds 35. -/
def specRaceCond (s : GameState) : Prop :=
  (12 ≤ ∑ i : Fin 24, (if 18 ≤ (i : ℕ) then ppos (s.points i) else 0)
    ∧ 12 ≤ ∑ i : Fin 24, (if (i : ℕ) ≤ 5 then pneg (s.points i) else 0))
  ∨ 35 < |pip_count s .P - pip_count s .A|

instance (s : GameState) : Decidable (specRaceCond s) := by
  unfold specRaceCond; infer_instance

/-- Non-terminal state where the code says race but the spec condition
says contact: lone PLAYER checker on 10, lone AI checker on 5, 14
checkers borne off per side; neither home holds 12 checkers and the pip
gap is 8. -/
def sC7 : GameState :=
  { points := fun i => if (i : ℕ) = 10 then 1 else if (i : ℕ) = 5 then -1 else 0,
    barP := 0, barA := 0, bearOffP := 14, bearOffA := 14, dice_left := [] }

/-- C7 counterexample: the code classifies sC7 as race phase (contact
broken) and scores it with the race formula, although the claimed
condition (12 checkers in both homes, or pip gap over 35) is false. -/
theorem c7_counterexample :
    ¬ specRaceCond sC7
    ∧ is_race_phase sC7
    ∧ sC7.bearOffA ≠ 15 ∧ sC7.bearOffP ≠ 15
    ∧ evaluate_state_csp sC7 = 14080 := by
  refine ⟨by decide, by decide, by decide, by decide, ?_⟩
  unfold evaluate_state_csp
  rw [if_neg (by decide : ¬ sC7.bearOffA = 15),
    if_neg (by decide : ¬ sC7.bearOffP = 15),
    if_pos (by decide : is_race_phase sC7),
    show pip_count sC7 .A = 6 from by decide,
    show pip_count sC7 .P = 14 from by decide,
    show sC7.bearOffA = 14 from rfl]
  norm_num

/-- C7 witness: the amended statement at sC7 (race classified, race
formula value). -/
theorem c7_witness :
    (is_race_phase sC7 ↔ ((∃ i : Fin 24, 0 < sC7.points i)
        ∧ ∀ i j : Fin 24, 0 < sC7.points i → sC7.points j < 0 → (j : ℕ) < (i : ℕ)))
    ∧ (is_race_phase sC7 → evaluate_state_csp sC7
        = 10 * (((pip_count sC7 .P - pip_count sC7 .A : ℤ)) : ℚ)
          + 1000 * (sC7.bearOffA : ℚ)) :=
  c7_amended sC7 (by decide) (by decide)

lemma sum_comp_update (g : ℤ → ℤ) (f : Fin 24 → ℤ) (i : Fin 24) (v : ℤ) :
    ∑ j : Fin 24, g (Function.update f i v j)
      = (∑ j : Fin 24, g (f j)) + (g v - g (f i)) := by
  have hpt : ∀ j, g (Function.update f i v j)
      = Function.update (fun j => g (f j)) i (g v) j := by
    intro j
    rw [Function.update_apply, Function.update_apply]
    split <;> rfl
  rw [Finset.sum_congr rfl (fun j _ => hpt j),
    Finset.sum_update_of_mem (Finset.mem_univ i)]
  have hrest : ∑ j ∈ Finset.univ \ {i}, g (f j)
      = (∑ j : Fin 24, g (f j)) - g (f i) := by
    rw [Finset.sum_sdiff_eq_sub (Finset.singleton_subset_iff.mpr (Finset.mem_univ i))]
    simp
  rw [hrest]
  ring

lemma sum_comp_update2 (g : ℤ → ℤ) (f : Fin 24 → ℤ) (i j : Fin 24) (hij : j ≠ i) (a w : ℤ) :
    ∑ k : Fin 24, g (Function.update (Function.update f i a) j w k)
      = (∑ k : Fin 24, g (f k)) + (g a - g (f i)) + (g w - g (f j)) := by
  rw [sum_comp_update, sum_comp_update, Function.update_noteq hij]

lemma idx_val (z : ℤ) (h0 : 0 ≤ z) (h23 : z ≤ 23) : ((idx z : Fin 24) : ℤ) = z := by
  show (((z % 24).toNat : ℕ) : ℤ) = z
  rw [Int.emod_eq_of_lt h0 (by omega), Int.toNat_of_nonneg h0]

lemma idx_coe (i : Fin 24) : idx ((i : ℤ)) = i := by
  apply Fin.ext
  have hi : (i : ℕ) < 24 := i.isLt
  have h := idx_val (i : ℤ) (by omega) (by omega)
  exact_mod_cast h

lemma ppos_pos {x : ℤ} (h : 0 < x) : ppos x = x := if_pos h

lemma ppos_nonpos {x : ℤ} (h : x ≤ 0) : ppos x = 0 := by
  unfold ppos; rw [if_neg (by omega)]

lemma pneg_of_neg {x : ℤ} (h : x < 0) : pneg x = -x := if_pos h

lemma pneg_nonneg {x : ℤ} (h : 0 ≤ x) : pneg x = 0 := by
  unfold pneg; rw [if_neg (by omega)]

lemma ppos_of_nonneg {x : ℤ} (h : 0 ≤ x) : ppos x = x := by
  unfold ppos; split_ifs <;> omega

lemma pneg_of_nonpos {x : ℤ} (h : x ≤ 0) : pneg x = -x := by
  unfold pneg; split_ifs <;> omega

lemma counts_applyCore_legal (s : GameState) (p : Side) (d : ℕ) (m : Move)
    (hd1 : 1 ≤ d) (hd6 : d ≤ 6)
    (hm : m ∈ legal_single_moves_for_die s p d) :
    countP (applyCore m p s) = countP s ∧ countA (applyCore m p s) = countA s := by
  unfold legal_single_moves_for_die at hm
  by_cases hbar : 0 < s.bar p
  · rw [if_pos hbar] at hm
    cases p
    · -- PLAYER re-entry from the bar
      dsimp only at hm
      by_cases hv : is_valid_dest s .P ((d : ℤ) - 1) = true
      · rw [if_pos hv] at hm
        have hmeq : m = ⟨.bar, (d : ℤ) - 1, d⟩ := List.mem_singleton.mp hm
        subst hmeq
        have hrange : (0 : ℤ) ≤ (d : ℤ) - 1 ∧ (d : ℤ) - 1 ≤ 23 := by omega
        have hpts : -1 ≤ s.points (idx ((d : ℤ) - 1)) := by
          unfold is_valid_dest at hv
          rw [if_pos hrange] at hv
          exact of_decide_eq_true hv
        unfold applyCore destStep originStep
        dsimp only
        rw [if_neg (show ¬ ((Side.P = Side.P ∧ (24 : ℤ) ≤ (d : ℤ) - 1)
            ∨ (Side.P = Side.A ∧ (d : ℤ) - 1 ≤ -1)) by
          rintro (⟨-, h⟩ | ⟨h, -⟩)
          · omega
          · exact Side.noConfusion h)]
        by_cases hhit : s.points (idx ((d : ℤ) - 1)) = -1
        · rw [if_pos hhit]
          unfold countP countA piecesP piecesA
          dsimp only
          rw [sum_comp_update ppos, sum_comp_update pneg, hhit,
            ppos_pos (by omega : (0 : ℤ) < 1), ppos_nonpos (by omega : (-1 : ℤ) ≤ 0),
            pneg_nonneg (by omega : (0 : ℤ) ≤ 1), pneg_of_neg (by omega : (-1 : ℤ) < 0)]
          constructor <;> ring
        · rw [if_neg hhit]
          unfold countP countA piecesP piecesA
          dsimp only
          rw [sum_comp_update ppos, sum_comp_update pneg,
            ppos_of_nonneg (by omega : 0 ≤ s.points (idx ((d : ℤ) - 1)) + 1),
            ppos_of_nonneg (by omega : 0 ≤ s.points (idx ((d : ℤ) - 1))),
            pneg_nonneg (by omega : 0 ≤ s.points (idx ((d : ℤ) - 1)) + 1),
            pneg_nonneg (by omega : 0 ≤ s.points (idx ((d : ℤ) - 1)))]
          constructor <;> ring
      · rw [if_neg hv] at hm
        exact absurd hm (List.not_mem_nil m)
    · -- AI re-entry from the bar
      dsimp only at hm
      by_cases hv : is_valid_dest s .A (24 - (d : ℤ)) = true
      · rw [if_pos hv] at hm
        have hmeq : m = ⟨.bar, 24 - (d : ℤ), d⟩ := List.mem_singleton.mp hm
        subst hmeq
        have hrange : (0 : ℤ) ≤ 24 - (d : ℤ) ∧ 24 - (d : ℤ) ≤ 23 := by omega
        have hpts : s.points (idx (24 - (d : ℤ))) ≤ 1 := by
          unfold is_valid_dest at hv
          rw [if_pos hrange] at hv
          exact of_decide_eq_true hv
        unfold applyCore destStep originStep
        dsimp only
        rw [if_neg (show ¬ ((Side.A = Side.P ∧ (24 : ℤ) ≤ 24 - (d : ℤ))
            ∨ (Side.A = Side.A ∧ 24 - (d : ℤ) ≤ -1)) by
          rintro (⟨h, -⟩ | ⟨-, h⟩)
          · exact Side.noConfusion h
          · omega)]
        by_cases hhit : s.points (idx (24 - (d : ℤ))) = 1
        · rw [if_pos hhit]
          unfold countP countA piecesP piecesA
          dsimp only
          rw [sum_comp_update ppos, sum_comp_update pneg, hhit,
            ppos_nonpos (by omega : (-1 : ℤ) ≤ 0), ppos_pos (by omega : (0 : ℤ) < 1),
            pneg_of_neg (by omega : (-1 : ℤ) < 0), pneg_nonneg (by omega : (0 : ℤ) ≤ 1)]
          constructor <;> ring
        · rw [if_neg hhit]
          unfold countP countA piecesP piecesA
          dsimp only
          rw [sum_comp_update ppos, sum_comp_update pneg,
            ppos_nonpos (by omega : s.points (idx (24 - (d : ℤ))) - 1 ≤ 0),
            ppos_nonpos (by omega : s.points (idx (24 - (d : ℤ))) ≤ 0),
            pneg_of_nonpos (by omega : s.points (idx (24 - (d : ℤ))) - 1 ≤ 0),
            pneg_of_nonpos (by omega : s.points (idx (24 - (d : ℤ))) ≤ 0)]
          constructor <;> ring
      · rw [if_neg hv] at hm
        exact absurd hm (List.not_mem_nil m)
  · rw [if_neg hbar] at hm
    rw [List.mem_flatMap] at hm
    obtain ⟨i, -, hmi⟩ := hm
    have hi24 : (i : ℕ) < 24 := i.isLt
    cases p
    · -- PLAYER board move
      by_cases hocc : 0 < s.points i
      · rw [if_pos (Or.inl ⟨rfl, hocc⟩)] at hmi
        dsimp only at hmi
        by_cases hbear : (24 : ℤ) ≤ (i : ℤ) + (d : ℤ)
        · rw [if_pos (Or.inl ⟨rfl, hbear⟩)] at hmi
          by_cases hcbo : can_bear_off s .P = true
          · rw [if_pos hcbo] at hmi
            have hmeq := List.mem_singleton.mp hmi
            subst hmeq
            unfold applyCore destStep originStep
            dsimp only
            rw [idx_coe, if_pos (Or.inl ⟨rfl, hbear⟩)]
            unfold countP countA piecesP piecesA
            dsimp only
            rw [sum_comp_update ppos, sum_comp_update pneg,
              ppos_of_nonneg (by omega : 0 ≤ s.points i - 1), ppos_pos hocc,
              pneg_nonneg (by omega : 0 ≤ s.points i - 1), pneg_nonneg (le_of_lt hocc)]
            constructor <;> ring
          · rw [if_neg hcbo] at hmi
            exact absurd hmi (List.not_mem_nil m)
        · rw [if_neg (show ¬ ((Side.P = Side.P ∧ (24 : ℤ) ≤ (i : ℤ) + (d : ℤ))
              ∨ (Side.P = Side.A ∧ (i : ℤ) + (d : ℤ) ≤ -1)) by
            rintro (⟨-, h⟩ | ⟨h, -⟩)
            · exact hbear h
            · exact Side.noConfusion h)] at hmi
          have hrange : (0 : ℤ) ≤ (i : ℤ) + (d : ℤ) ∧ (i : ℤ) + (d : ℤ) ≤ 23 := by omega
          rw [if_pos hrange] at hmi
          by_cases hv : is_valid_dest s .P ((i : ℤ) + (d : ℤ)) = true
          · rw [if_pos hv] at hmi
            have hmeq := List.mem_singleton.mp hmi
            subst hmeq
            have hpts : -1 ≤ s.points (idx ((i : ℤ) + (d : ℤ))) := by
              unfold is_valid_dest at hv
              rw [if_pos hrange] at hv
              exact of_decide_eq_true hv
            have hji : idx ((i : ℤ) + (d : ℤ)) ≠ i := by
              intro heq
              have h1 := idx_val ((i : ℤ) + (d : ℤ)) (by omega) (by omega)
              rw [heq] at h1
              omega
            unfold applyCore destStep originStep
            dsimp only
            rw [idx_coe,
              if_neg (show ¬ ((Side.P = Side.P ∧ (24 : ℤ) ≤ (i : ℤ) + (d : ℤ))
                ∨ (Side.P = Side.A ∧ (i : ℤ) + (d : ℤ) ≤ -1)) by
                rintro (⟨-, h⟩ | ⟨h, -⟩)
                · exact hbear h
                · exact Side.noConfusion h)]
            rw [Function.update_noteq hji]
            by_cases hhit : s.points (idx ((i : ℤ) + (d : ℤ))) = -1
            · rw [if_pos hhit]
              unfold countP countA piecesP piecesA
              dsimp only
              rw [sum_comp_update2 ppos _ _ _ hji, sum_comp_update2 pneg _ _ _ hji, hhit,
                ppos_of_nonneg (by omega : 0 ≤ s.points i - 1), ppos_pos hocc,
                ppos_pos (by omega : (0 : ℤ) < 1), ppos_nonpos (by omega : (-1 : ℤ) ≤ 0),
                pneg_nonneg (by omega : 0 ≤ s.points i - 1), pneg_nonneg (le_of_lt hocc),
                pneg_nonneg (by omega : (0 : ℤ) ≤ 1), pneg_of_neg (by omega : (-1 : ℤ) < 0)]
              constructor <;> ring
            · rw [if_neg hhit]
              unfold countP countA piecesP piecesA
              dsimp only
              rw [sum_comp_update2 ppos _ _ _ hji, sum_comp_update2 pneg _ _ _ hji,
                ppos_of_nonneg (by omega : 0 ≤ s.points i - 1), ppos_pos hocc,
                ppos_of_nonneg (by omega : 0 ≤ s.points (idx ((i : ℤ) + (d : ℤ))) + 1),
                ppos_of_nonneg (by omega : 0 ≤ s.points (idx ((i : ℤ) + (d : ℤ)))),
                pneg_nonneg (by omega : 0 ≤ s.points i - 1), pneg_nonneg (le_of_lt hocc),
                pneg_nonneg (by omega : 0 ≤ s.points (idx ((i : ℤ) + (d : ℤ))) + 1),
                pneg_nonneg (by omega : 0 ≤ s.points (idx ((i : ℤ) + (d : ℤ))))]
              constructor <;> ring
          · rw [if_neg hv] at hmi
            exact absurd hmi (List.not_mem_nil m)
      · rw [if_neg (show ¬ ((Side.P = Side.P ∧ 0 < s.points i)
            ∨ (Side.P = Side.A ∧ s.points i < 0)) by
          rintro (⟨-, h⟩ | ⟨h, -⟩)
          · exact hocc h
          · exact Side.noConfusion h)] at hmi
        exact absurd hmi (List.not_mem_nil m)
    · -- AI board move
      by_cases hocc : s.points i < 0
      · rw [if_pos (Or.inr ⟨rfl, hocc⟩)] at hmi
        dsimp only at hmi
        by_cases hbear : (i : ℤ) - (d : ℤ) ≤ -1
        · rw [if_pos (Or.inr ⟨rfl, hbear⟩)] at hmi
          by_cases hcbo : can_bear_off s .A = true
          · rw [if_pos hcbo] at hmi
            have hmeq := List.mem_singleton.mp hmi
            subst hmeq
            unfold applyCore destStep originStep
            dsimp only
            rw [idx_coe, if_pos (Or.inr ⟨rfl, hbear⟩)]
            unfold countP countA piecesP piecesA
            dsimp only
            rw [sum_comp_update ppos, sum_comp_update pneg,
              ppos_nonpos (by omega : s.points i + 1 ≤ 0), ppos_nonpos (le_of_lt hocc),
              pneg_of_nonpos (by omega : s.points i + 1 ≤ 0), pneg_of_nonpos (le_of_lt hocc)]
            constructor <;> ring
          · rw [if_neg hcbo] at hmi
            exact absurd hmi (List.not_mem_nil m)
        · rw [if_neg (show ¬ ((Side.A = Side.P ∧ (24 : ℤ) ≤ (i : ℤ) - (d : ℤ))
              ∨ (Side.A = Side.A ∧ (i : ℤ) - (d : ℤ) ≤ -1)) by
            rintro (⟨h, -⟩ | ⟨-, h⟩)
            · exact Side.noConfusion h
            · exact hbear h)] at hmi
          have hrange : (0 : ℤ) ≤ (i : ℤ) - (d : ℤ) ∧ (i : ℤ) - (d : ℤ) ≤ 23 := by omega
          rw [if_pos hrange] at hmi
          by_cases hv : is_valid_dest s .A ((i : ℤ) - (d : ℤ)) = true
          · rw [if_pos hv] at hmi
            have hmeq := List.mem_singleton.mp hmi
            subst hmeq
            have hpts : s.points (idx ((i : ℤ) - (d : ℤ))) ≤ 1 := by
              unfold is_valid_dest at hv
              rw [if_pos hrange] at hv
              exact of_decide_eq_true hv
            have hji : idx ((i : ℤ) - (d : ℤ)) ≠ i := by
              intro heq
              have h1 := idx_val ((i : ℤ) - (d : ℤ)) (by omega) (by omega)
              rw [heq] at h1
              omega
            unfold applyCore destStep originStep
            dsimp only
            rw [idx_coe,
              if_neg (show ¬ ((Side.A = Side.P ∧ (24 : ℤ) ≤ (i : ℤ) - (d : ℤ))
                ∨ (Side.A = Side.A ∧ (i : ℤ) - (d : ℤ) ≤ -1)) by
                rintro (⟨h, -⟩ | ⟨-, h⟩)
                · exact Side.noConfusion h
                · exact hbear h)]
            rw [Function.update_noteq hji]
            by_cases hhit : s.points (idx ((i : ℤ) - (d : ℤ))) = 1
            · rw [if_pos hhit]
              unfold countP countA piecesP piecesA
              dsimp only
              rw [sum_comp_update2 ppos _ _ _ hji, sum_comp_update2 pneg _ _ _ hji, hhit,
                ppos_nonpos (by omega : s.points i + 1 ≤ 0), ppos_nonpos (le_of_lt hocc),
                ppos_nonpos (by omega : (-1 : ℤ) ≤ 0), ppos_pos (by omega : (0 : ℤ) < 1),
                pneg_of_nonpos (by omega : s.points i + 1 ≤ 0), pneg_of_nonpos (le_of_lt hocc),
                pneg_of_neg (by omega : (-1 : ℤ) < 0), pneg_nonneg (by omega : (0 : ℤ) ≤ 1)]
              constructor <;> ring
            · rw [if_neg hhit]
              unfold countP countA piecesP piecesA
              dsimp only
              rw [sum_comp_update2 ppos _ _ _ hji, sum_comp_update2 pneg _ _ _ hji,
                ppos_nonpos (by omega : s.points i + 1 ≤ 0), ppos_nonpos (le_of_lt hocc),
                ppos_nonpos (by omega : s.points (idx ((i : ℤ) - (d : ℤ))) - 1 ≤ 0),
                ppos_nonpos (by omega : s.points (idx ((i : ℤ) - (d : ℤ))) ≤ 0),
                pneg_of_nonpos (by omega : s.points i + 1 ≤ 0), pneg_of_nonpos (le_of_lt hocc),
                pneg_of_nonpos (by omega : s.points (idx ((i : ℤ) - (d : ℤ))) - 1 ≤ 0),
                pneg_of_nonpos (by omega : s.points (idx ((i : ℤ) - (d : ℤ))) ≤ 0)]
              constructor <;> ring
          · rw [if_neg hv] at hmi
            exact absurd hmi (List.not_mem_nil m)
      · rw [if_neg (show ¬ ((Side.A = Side.P ∧ 0 < s.points i)
            ∨ (Side.A = Side.A ∧ s.points i < 0)) by
          rintro (⟨h, -⟩ | ⟨-, h⟩)
          · exact Side.noConfusion h
          · exact hocc h)] at hmi
        exact absurd hmi (List.not_mem_nil m)

/-- C1: checker conservation invariant — every state reachable from the
standard setup by applying generator-produced moves (die values 1..6)
through apply_move has exactly 15 checkers per side, counting on-board,
bar and borne-off checkers. -/
theorem c1_conservation (s : GameState) (hs : Reachable s) :
    countP s = 15 ∧ countA s = 15 := by
  induction hs with
  | init => exact ⟨by decide, by decide⟩
  | step s p d m _ hd1 hd6 hm ih =>
      have h := counts_applyCore_legal s p d m hd1 hd6 hm
      exact ⟨h.1.trans ih.1, h.2.trans ih.2⟩

/-- C1 witness: the invariant at the initial state. -/
theorem c1_witness : countP setup_standard = 15 ∧ countA setup_standard = 15 :=
  c1_conservation setup_standard Reachable.init

lemma dotSum_cons (pr : ℚ × ℚ) (r : List (ℚ × ℚ)) :
    dotSum (pr :: r) = pr.2 * pr.1 + dotSum r := by
  simp [dotSum]

lemma restW_cons (pr : ℚ × ℚ) (r : List (ℚ × ℚ)) :
    restW (pr :: r) = pr.2 + restW r := by
  simp [restW]

lemma dotSum_ge (r : List (ℚ × ℚ)) (B : ℚ)
    (hw : ∀ pr ∈ r, 0 ≤ pr.2) (hB : ∀ pr ∈ r, B ≤ pr.1) :
    restW r * B ≤ dotSum r := by
  induction r with
  | nil => simp [restW, dotSum]
  | cons pr r ih =>
      rw [restW_cons, dotSum_cons, add_mul]
      have hh1 : pr.2 * B ≤ pr.2 * pr.1 :=
        mul_le_mul_of_nonneg_left (hB pr (List.mem_cons_self _ _))
          (hw pr (List.mem_cons_self _ _))
      have hh2 := ih (fun x hx => hw x (List.mem_cons_of_mem _ hx))
        (fun x hx => hB x (List.mem_cons_of_mem _ hx))
      exact add_le_add hh1 hh2

lemma innerScan_some_eq (W B : ℚ) (best : Option ℚ) :
    ∀ (ps : List (ℚ × ℚ)) (acc p : ℚ),
      innerScan W B best ps acc = some p → p = acc + dotSum ps := by
  intro ps
  induction ps with
  | nil =>
      intro acc p h
      have h2 : some acc = some p := h
      cases h2
      simp [dotSum]
  | cons pr r ih =>
      intro acc p h
      rw [innerScan] at h
      by_cases hg : geOptB ((acc + pr.2 * pr.1 + restW r * B) / W) best = true
      · rw [if_pos hg] at h
        exact absurd h (by simp)
      · rw [if_neg hg] at h
        have := ih _ _ h
        rw [this, dotSum_cons]
        ring

lemma innerScan_none_best (W B b : ℚ) (hW : 0 < W) :
    ∀ (ps : List (ℚ × ℚ)) (acc : ℚ),
      (∀ pr ∈ ps, 0 ≤ pr.2) → (∀ pr ∈ ps, B ≤ pr.1) →
      innerScan W B (some b) ps acc = none → b ≤ (acc + dotSum ps) / W := by
  intro ps
  induction ps with
  | nil =>
      intro acc _ _ h
      exact absurd h (by simp [innerScan])
  | cons pr r ih =>
      intro acc hw hB h
      rw [innerScan] at h
      by_cases hg : geOptB ((acc + pr.2 * pr.1 + restW r * B) / W) (some b) = true
      · have hb : b ≤ (acc + pr.2 * pr.1 + restW r * B) / W := by
          unfold geOptB at hg
          exact of_decide_eq_true hg
        have hdot : restW r * B ≤ dotSum r :=
          dotSum_ge r B (fun x hx => hw x (List.mem_cons_of_mem _ hx))
            (fun x hx => hB x (List.mem_cons_of_mem _ hx))
        have hstep : acc + pr.2 * pr.1 + restW r * B ≤ acc + dotSum (pr :: r) := by
          rw [dotSum_cons]
          linarith
        exact le_trans hb (div_le_div_of_nonneg_right hstep (le_of_lt hW))
      · rw [if_neg hg] at h
        have := ih (acc + pr.2 * pr.1)
          (fun x hx => hw x (List.mem_cons_of_mem _ hx))
          (fun x hx => hB x (List.mem_cons_of_mem _ hx)) h
        rw [dotSum_cons, ← add_assoc]
        exact this

lemma innerScan_nonebest_ne_none (W B : ℚ) :
    ∀ (ps : List (ℚ × ℚ)) (acc : ℚ), innerScan W B none ps acc ≠ none := by
  intro ps
  induction ps with
  | nil => intro acc; simp [innerScan]
  | cons pr r ih =>
      intro acc
      rw [innerScan]
      rw [if_neg (by simp [geOptB] : ¬ geOptB ((acc + pr.2 * pr.1 + restW r * B) / W) none = true)]
      exact ih _

lemma pickBest_go (ws : List ℚ) (W B : ℚ) (hW : 0 < W) (hws : ∀ w ∈ ws, 0 ≤ w) :
    ∀ (cands prev : List Cand) (best : Option (List Move × ℚ)),
      (∀ c ∈ cands, c.isWin = false) →
      (∀ c ∈ cands, ∀ v ∈ c.vals, B ≤ v) →
      ((best = none ∧ prev = []) ∨
        ∃ c ∈ prev, best = some (c.seq, dotSum (c.vals.zip ws) / W) ∧
          ∀ c2 ∈ prev, dotSum (c.vals.zip ws) / W ≤ dotSum (c2.vals.zip ws) / W) →
      ∃ r, pickBest ws W B cands best = .inr r ∧
        ((r = none ∧ prev ++ cands = []) ∨
          ∃ c ∈ prev ++ cands, r = some (c.seq, dotSum (c.vals.zip ws) / W) ∧
            ∀ c2 ∈ prev ++ cands,
              dotSum (c.vals.zip ws) / W ≤ dotSum (c2.vals.zip ws) / W) := by
  intro cands
  induction cands with
  | nil =>
      intro prev best _ _ hinv
      refine ⟨best, rfl, ?_⟩
      rw [List.append_nil]
      exact hinv
  | cons c rest ih =>
      intro prev best hwin hB hinv
      have hcwin : c.isWin = false := hwin c (List.mem_cons_self _ _)
      have hwin2 : ∀ x ∈ rest, x.isWin = false :=
        fun x hx => hwin x (List.mem_cons_of_mem _ hx)
      have hB2 : ∀ x ∈ rest, ∀ v ∈ x.vals, B ≤ v :=
        fun x hx => hB x (List.mem_cons_of_mem _ hx)
      have hzw : ∀ pr ∈ c.vals.zip ws, 0 ≤ pr.2 :=
        fun pr hpr => hws pr.2 (List.of_mem_zip hpr).2
      have hzB : ∀ pr ∈ c.vals.zip ws, B ≤ pr.1 :=
        fun pr hpr => hB c (List.mem_cons_self _ _) pr.1 (List.of_mem_zip hpr).1
      rw [pickBest, hcwin, if_neg Bool.false_ne_true]
      cases hscan : innerScan W B (best.map Prod.snd) (c.vals.zip ws) 0 with
      | none =>
          rcases hinv with ⟨hbnone, hprev⟩ | ⟨c0, hc0, hbeq, hmin⟩
          · exfalso
            rw [hbnone] at hscan
            exact innerScan_nonebest_ne_none W B _ 0 hscan
          · have hbm : best.map Prod.snd = some (dotSum (c0.vals.zip ws) / W) := by
              rw [hbeq]; rfl
            rw [hbm] at hscan
            have hle : dotSum (c0.vals.zip ws) / W ≤ (0 + dotSum (c.vals.zip ws)) / W :=
              innerScan_none_best W B _ hW _ 0 hzw hzB hscan
            rw [zero_add] at hle
            have hinv2 : (best = none ∧ prev ++ [c] = []) ∨
                ∃ x ∈ prev ++ [c], best = some (x.seq, dotSum (x.vals.zip ws) / W) ∧
                  ∀ c2 ∈ prev ++ [c],
                    dotSum (x.vals.zip ws) / W ≤ dotSum (c2.vals.zip ws) / W := by
              refine Or.inr ⟨c0, List.mem_append_left _ hc0, hbeq, ?_⟩
              intro c2 hc2
              rcases List.mem_append.mp hc2 with h | h
              · exact hmin c2 h
              · rw [List.mem_singleton.mp h]
                exact hle
            obtain ⟨r, hr, hfin⟩ := ih (prev ++ [c]) best hwin2 hB2 hinv2
            refine ⟨r, ?_, ?_⟩
            · simpa using hr
            · rwa [List.append_assoc, List.singleton_append] at hfin
      | some p =>
          have hp := innerScan_some_eq W B _ _ _ _ hscan
          rw [zero_add] at hp
          subst hp
          dsimp only
          by_cases hlt : ltOptB (dotSum (c.vals.zip ws) / W) (best.map Prod.snd) = true
          · rw [if_pos hlt]
            have hinv2 : ((some (c.seq, dotSum (c.vals.zip ws) / W)
                  : Option (List Move × ℚ)) = none ∧ prev ++ [c] = []) ∨
                ∃ x ∈ prev ++ [c],
                  (some (c.seq, dotSum (c.vals.zip ws) / W) : Option (List Move × ℚ))
                    = some (x.seq, dotSum (x.vals.zip ws) / W) ∧
                  ∀ c2 ∈ prev ++ [c],
                    dotSum (x.vals.zip ws) / W ≤ dotSum (c2.vals.zip ws) / W := by
              refine Or.inr ⟨c, List.mem_append_right _ (List.mem_singleton_self c), rfl, ?_⟩
              intro c2 hc2
              rcases hinv with ⟨hbnone, hprev⟩ | ⟨c0, hc0, hbeq, hmin⟩
              · subst hprev
                have hc2e : c2 = c := by
                  rw [List.nil_append] at hc2
                  exact List.mem_singleton.mp hc2
                rw [hc2e]
              · have hbm : best.map Prod.snd = some (dotSum (c0.vals.zip ws) / W) := by
                  rw [hbeq]; rfl
                rw [hbm] at hlt
                unfold ltOptB at hlt
                have hcl := of_decide_eq_true hlt
                rcases List.mem_append.mp hc2 with h | h
                · exact le_trans (le_of_lt hcl) (hmin c2 h)
                · rw [List.mem_singleton.mp h]
            obtain ⟨r, hr, hfin⟩ := ih (prev ++ [c])
              (some (c.seq, dotSum (c.vals.zip ws) / W)) hwin2 hB2 hinv2
            refine ⟨r, hr, ?_⟩
            rwa [List.append_assoc, List.singleton_append] at hfin
          · rw [if_neg hlt]
            rcases hinv with ⟨hbnone, hprev⟩ | ⟨c0, hc0, hbeq, hmin⟩
            · exfalso
              rw [hbnone] at hlt
              exact hlt rfl
            · have hbm : best.map Prod.snd = some (dotSum (c0.vals.zip ws) / W) := by
                rw [hbeq]; rfl
              rw [hbm] at hlt
              have hge : dotSum (c0.vals.zip ws) / W ≤ dotSum (c.vals.zip ws) / W := by
                refine le_of_not_lt (fun hcon => hlt ?_)
                unfold ltOptB
                exact decide_eq_true hcon
              have hinv2 : (best = none ∧ prev ++ [c] = []) ∨
                  ∃ x ∈ prev ++ [c], best = some (x.seq, dotSum (x.vals.zip ws) / W) ∧
                    ∀ c2 ∈ prev ++ [c],
                      dotSum (x.vals.zip ws) / W ≤ dotSum (c2.vals.zip ws) / W := by
                refine Or.inr ⟨c0, List.mem_append_left _ hc0, hbeq, ?_⟩
                intro c2 hc2
                rcases List.mem_append.mp hc2 with h | h
                · exact hmin c2 h
                · rw [List.mem_singleton.mp h]
                  exact hge
              obtain ⟨r, hr, hfin⟩ := ih (prev ++ [c]) best hwin2 hB2 hinv2
              refine ⟨r, hr, ?_⟩
              rwa [List.append_assoc, List.singleton_append] at hfin

lemma outcomeWeights_pos : ∀ w ∈ outcomeWeights, 0 < w := by
  intro w hw
  obtain ⟨o, ho, rfl⟩ := List.mem_map.mp hw
  obtain ⟨d1, -, hmap⟩ := List.mem_flatMap.mp ho
  obtain ⟨d2, -, rfl⟩ := List.mem_map.mp hmap
  dsimp only
  split_ifs <;> norm_num

lemma weightSum_outcomeWeights_pos : 0 < weightSum outcomeWeights := by
  unfold weightSum
  have hne : outcomeWeights ≠ [] := by
    unfold outcomeWeights
    simp only [ne_eq, List.map_eq_nil_iff]
    decide
  obtain ⟨w, r, hcons⟩ := List.exists_cons_of_ne_nil hne
  rw [hcons]
  have hw : 0 < w := outcomeWeights_pos w (by rw [hcons]; exact List.mem_cons_self _ _)
  have hr : 0 ≤ r.sum := by
    apply List.sum_nonneg
    intro x hx
    exact le_of_lt (outcomeWeights_pos x (by rw [hcons]; exact List.mem_cons_of_mem _ hx))
  rw [List.sum_cons]
  linarith

/-- C4: soundness of the optimistic-bound cutoff in the one-ply search.
Over any retained candidate list whose per-outcome opponent-reply scores
are all bounded below by BMIN (a true bound: the static evaluator cannot
go below -1000000) and which contains no immediate-win short-circuit,
the selection loop with early abandonment returns a candidate whose
exact expected value over the 21 weighted dice outcomes is minimal among
all retained candidates — every abandoned candidate is no better than
the returned sequence. -/
theorem c4_cutoff_sound (cands : List Cand)
    (hne : cands ≠ [])
    (_hlen : ∀ c ∈ cands, c.vals.length = 21)
    (hwin : ∀ c ∈ cands, c.isWin = false)
    (hB : ∀ c ∈ cands, ∀ v ∈ c.vals, BMIN ≤ v) :
    ∃ c ∈ cands, expectiminimax_one_ply_select cands = some c.seq
      ∧ ∀ c2 ∈ cands, expVal c ≤ expVal c2 := by
  have hW : 0 < weightSum outcomeWeights := weightSum_outcomeWeights_pos
  have hws : ∀ w ∈ outcomeWeights, 0 ≤ w :=
    fun w hw => le_of_lt (outcomeWeights_pos w hw)
  obtain ⟨r, hr, hfin⟩ := pickBest_go outcomeWeights (weightSum outcomeWeights) BMIN
    hW hws cands [] none hwin hB (Or.inl ⟨rfl, rfl⟩)
  rw [List.nil_append] at hfin
  rcases hfin with ⟨-, hnil⟩ | ⟨c, hc, hreq, hmin⟩
  · exact absurd hnil hne
  · refine ⟨c, hc, ?_, hmin⟩
    unfold expectiminimax_one_ply_select
    rw [hr, hreq]

/-- C4 witness: a single all-zero candidate is selected with minimal
expected value. -/
theorem c4_witness :
    ([⟨[], false, List.replicate 21 0⟩] : List Cand) ≠ []
    ∧ ∃ c ∈ ([⟨[], false, List.replicate 21 0⟩] : List Cand),
        expectiminimax_one_ply_select [⟨[], false, List.replicate 21 0⟩] = some c.seq
        ∧ ∀ c2 ∈ ([⟨[], false, List.replicate 21 0⟩] : List Cand), expVal c ≤ expVal c2 := by
  refine ⟨by simp, c4_cutoff_sound _ (by simp) ?_ ?_ ?_⟩
  · intro c hc
    rw [List.mem_singleton.mp hc]
    simp
  · intro c hc
    rw [List.mem_singleton.mp hc]
  · intro c hc v hv
    rw [List.mem_singleton.mp hc] at hv
    have hv0 : v = 0 := List.eq_of_mem_replicate hv
    rw [hv0]
    unfold BMIN
    norm_num
